import Mathlib

/-!
Verification of the hexai Hex-playing engine against its specification.

Shallow embedding of the repository's Python sources:
* `src/hexai/hexboard.py`        → `HexBoard` and its operations
* `src/hexai/transpositiontable.py` → `TranspositionTable`
* `src/hexai/players/alphabetaplayer.py` → `alphabeta_nega`, `dijkstra_update`,
  `get_dijkstra_score`, `timed_turn_loop`, `do_turn`
* `src/hexai/players/mctsplayer.py`  → `MctsNode.best_child`, final move selection
* `src/hexai/players/baseplayer.py`  → `BasePlayer.__init__`

Modelling conventions:
* Python ints are `Int` where values can be negative (search scores, alpha/beta)
  and `Nat` where the program only ever produces non-negative values
  (coordinates, depths, visit counts, Dijkstra scores: those are seeded with
  0/1/LOSE and only ever decreased towards other non-negative values).
* Cells hold `Option Color` (`none` = `HexBoard.EMPTY`, `some .blue` = `BLUE` = 1,
  `some .red` = `RED` = 2); a cell reachable in play holds exactly these values.
* Python strings are `List Char`; `np.array2string` of an N×N array of the
  single-digit values 0/1/2 is reproduced character by character.
* Wall-clock time is modelled by a tick counter: every `time()` call advances the
  counter by one, and the deadline `turn_timer + max_time` is a tick threshold.
  This covers exactly the runs in which the monotone clock advances between
  successive reads.
* Python `None` results are `Option.none`; a raised exception (the failed
  `assert best_move is not None`, `UnboundLocalError` in `timed_turn_loop`)
  is `Except.error ()` and propagates like the exception does.
* Telemetry counters (`no_nodes_searched`, `no_cuts`, `tt_hits_*`, `eval_count`)
  are omitted: no claim mentions them and they influence no control flow.
-/

/-- Player colors, `HexBoard.BLUE = 1` and `HexBoard.RED = 2` in the source. -/
inductive Color where
  | blue
  | red
deriving DecidableEq, Repr

/-- The integer constant the source uses for a color. -/
def Color.val : Color → Nat
  | .blue => 1
  | .red => 2

/-- `HexBoard.get_opposite_color`. -/
def Color.opp : Color → Color
  | .blue => .red
  | .red => .blue

/-- A cell of the grid: `none` is `HexBoard.EMPTY`, `some c` a placed piece. -/
abbrev Cell := Option Color

/-- A coordinate pair `(x, y)`. -/
abbrev Coord := Nat × Nat

/-- `HexBoard`: the board size and the N×N grid of cells (row x, column y). -/
structure HexBoard where
  size : Nat
  board : List (List Cell)
deriving DecidableEq, Repr

/-- Reading `self.board[x][y]` (out-of-structure reads default to empty). -/
def HexBoard.getCell (b : HexBoard) (c : Coord) : Cell :=
  (b.board.getD c.1 []).getD c.2 none

/-- Writing `self.board[x][y] = v`. -/
def HexBoard.setCell (b : HexBoard) (c : Coord) (v : Cell) : HexBoard :=
  { b with board := b.board.set c.1 ((b.board.getD c.1 []).set c.2 v) }

/-- The grid invariant: an N×N array of cells. -/
def HexBoard.WF (b : HexBoard) : Prop :=
  b.board.length = b.size ∧ ∀ r ∈ b.board, r.length = b.size

/-- `HexBoard.is_legal_move`: the coordinate is within the board bounds. -/
def HexBoard.is_legal_move (b : HexBoard) (m : Coord) : Bool :=
  decide (m.1 < b.size) && decide (m.2 < b.size)

/-- `HexBoard.is_empty`. -/
def HexBoard.is_empty (b : HexBoard) (c : Coord) : Bool :=
  decide (b.getCell c = none)

/-- `HexBoard.is_color`. -/
def HexBoard.is_color (b : HexBoard) (c : Coord) (col : Color) : Bool :=
  decide (b.getCell c = some col)

/-- `HexBoard.place`: no-op returning `False` when out of bounds or occupied,
otherwise sets the cell and returns `True`. -/
def HexBoard.place (b : HexBoard) (c : Coord) (col : Color) : Bool × HexBoard :=
  if ¬ b.is_legal_move c ∨ ¬ b.getCell c = none then (false, b)
  else (true, b.setCell c (some col))

/-- `HexBoard.take`: unconditionally empties the cell. -/
def HexBoard.take (b : HexBoard) (c : Coord) : HexBoard :=
  b.setCell c none

/-- `HexBoard.border`: the move lies on `color`'s target edge. -/
def HexBoard.border (b : HexBoard) (col : Color) (m : Coord) : Bool :=
  decide ((col = .blue ∧ m.1 = b.size - 1) ∨ (col = .red ∧ m.2 = b.size - 1))

/-- `HexBoard.get_neighbors`: the up-to-six in-bounds hexagonal neighbors, in
the exact order the source appends them. -/
def HexBoard.get_neighbors (b : HexBoard) (c : Coord) : List Coord :=
  (if 1 ≤ c.1 then [(c.1 - 1, c.2)] else []) ++
  (if c.1 + 1 < b.size then [(c.1 + 1, c.2)] else []) ++
  (if 1 ≤ c.1 ∧ c.2 + 1 ≤ b.size - 1 then [(c.1 - 1, c.2 + 1)] else []) ++
  (if c.1 + 1 < b.size ∧ 1 ≤ c.2 then [(c.1 + 1, c.2 - 1)] else []) ++
  (if c.2 + 1 < b.size then [(c.1, c.2 + 1)] else []) ++
  (if 1 ≤ c.2 then [(c.1, c.2 - 1)] else [])

/-- The `for n in self.get_neighbors(move)` loop inside `traverse`: try each
neighbor with the recursive traversal `f`, returning as soon as one reaches
the border, threading the `visited` dictionary. -/
def HexBoard.traverseNbs (f : Coord → List Coord → Bool × List Coord) :
    List Coord → List Coord → Bool × List Coord
  | [], vis => (false, vis)
  | n :: ns, vis =>
    let r := f n vis
    if r.1 then (true, r.2) else HexBoard.traverseNbs f ns r.2

/-- `HexBoard.traverse`: depth-first search over same-colored cells for the
target edge, threading the `visited` dictionary.  The fuel argument bounds the
recursion depth; `check_win` supplies `size * size + 1`, which exceeds the
greatest possible nesting (each nested call first records one more unvisited
cell in `visited`). -/
def HexBoard.traverse (b : HexBoard) (col : Color) :
    Nat → Coord → List Coord → Bool × List Coord
  | 0, _, vis => (false, vis)
  | Nat.succ fuel, mv, vis =>
    if ¬ b.is_color mv col ∨ mv ∈ vis then (false, vis)
    else if b.border col mv then (true, vis)
    else HexBoard.traverseNbs (HexBoard.traverse b col fuel)
      (b.get_neighbors mv) (mv :: vis)

/-- `HexBoard.check_win`: start a traversal from every cell of `color`'s start
edge with a fresh `visited` dictionary. -/
def HexBoard.check_win (b : HexBoard) (col : Color) : Bool :=
  (List.range b.size).any fun i =>
    let start : Coord := if col = .blue then (0, i) else (i, 0)
    (b.traverse col (b.size * b.size + 1) start []).1

/-- The empty coordinates of one row, scanned left to right
(the row-major scan `np.where(self.board == HexBoard.EMPTY)` performs). -/
def HexBoard.rowEmpties (x : Nat) : Nat → List Cell → List Coord
  | _, [] => []
  | y, c :: cs =>
    if c = none then (x, y) :: HexBoard.rowEmpties x (y + 1) cs
    else HexBoard.rowEmpties x (y + 1) cs

/-- The empty coordinates of the whole grid in row-major order. -/
def HexBoard.boardEmpties : Nat → List (List Cell) → List Coord
  | _, [] => []
  | x, r :: rs => HexBoard.rowEmpties x 0 r ++ HexBoard.boardEmpties (x + 1) rs

/-- `HexBoard.get_empty_cells`: row-major list of empty coordinates. -/
def HexBoard.get_empty_cells (b : HexBoard) : List Coord :=
  HexBoard.boardEmpties 0 b.board

/-- The single digit `np.array2string` prints for a cell
(EMPTY = 0, BLUE = 1, RED = 2). -/
def HexBoard.cellChar : Cell → Char
  | none => '0'
  | some .blue => '1'
  | some .red => '2'

/-- One row as printed inside `np.array2string`, from the first digit to the
closing bracket: cells separated by single spaces, then `]`. -/
def HexBoard.rowChars : List Cell → List Char
  | [] => [']']
  | [c] => [HexBoard.cellChar c, ']']
  | c :: c' :: cs => HexBoard.cellChar c :: ' ' :: HexBoard.rowChars (c' :: cs)

/-- The concatenation of all bracketed rows, rows separated by a newline and
the one-column indentation under the outer bracket. -/
def HexBoard.rowsChars : List (List Cell) → List Char
  | [] => []
  | [r] => '[' :: HexBoard.rowChars r
  | r :: r' :: rs =>
    '[' :: HexBoard.rowChars r ++ '\n' :: ' ' :: HexBoard.rowsChars (r' :: rs)

/-- `HexBoard.tostring`: `np.array2string(self.board)`.  For every board whose
cells hold the values 0/1/2 (all values placeable in play) and whose size is at
most 25×25, numpy prints all elements un-summarized, every element one digit
wide, producing exactly `[[a b ...]\n [c d ...] ...]`. -/
def HexBoard.tostring (b : HexBoard) : List Char :=
  '[' :: HexBoard.rowsChars b.board ++ [']']

/-! ### List update lemmas used for place/undo reasoning -/

/-- Setting an index to the value it already holds leaves the list unchanged. -/
theorem listSet_of_getD {α : Type} :
    ∀ (l : List α) (n : Nat) (d v : α), n < l.length → l.getD n d = v →
      l.set n v = l
  | [], n, _, _, h, _ => absurd h (by simp)
  | a :: l, 0, d, v, _, hv => by simp_all [List.getD]
  | a :: l, n + 1, d, v, h, hv => by
    simp only [List.set]
    have := listSet_of_getD l n d v (by simpa using h) (by simpa [List.getD] using hv)
    rw [this]

/-- Reading back an index just set. -/
theorem listGetD_set_self {α : Type} :
    ∀ (l : List α) (n : Nat) (d v : α), n < l.length → (l.set n v).getD n d = v
  | [], n, _, _, h => absurd h (by simp)
  | a :: l, 0, d, v, _ => by simp [List.getD]
  | a :: l, n + 1, d, v, h => by
    simpa [List.getD] using listGetD_set_self l n d v (by simp at h; omega)

/-- Overwriting the same index twice keeps only the second write. -/
theorem listSet_set {α : Type} :
    ∀ (l : List α) (n : Nat) (a b : α), (l.set n a).set n b = l.set n b
  | [], _, _, _ => rfl
  | x :: l, 0, _, _ => rfl
  | x :: l, n + 1, a, b => by simp [listSet_set l n a b]

/-- `place` on an empty in-structure cell followed by `take` on the same cell
restores the very board. -/
theorem take_place_eq (b : HexBoard) (m : Coord) (col : Color)
    (hx : m.1 < b.board.length) (hy : m.2 < (b.board.getD m.1 []).length)
    (he : b.getCell m = none) :
    HexBoard.take (b.place m col).2 m = b := by
  obtain ⟨x, y⟩ := m
  by_cases hl : b.is_legal_move (x, y)
  · have hplace : (b.place (x, y) col).2 = b.setCell (x, y) (some col) := by
      simp [HexBoard.place, hl, he]
    rw [hplace]
    simp only [HexBoard.take, HexBoard.setCell]
    cases b with
    | mk size board =>
      simp only [HexBoard.mk.injEq, true_and]
      simp only [HexBoard.getCell] at he
      simp only at hx hy ⊢
      rw [listGetD_set_self board x [] _ hx, listSet_set, listSet_set]
      rw [listSet_of_getD _ _ _ _ hy he]
      exact listSet_of_getD _ _ _ _ hx rfl
  · have hplace : (b.place (x, y) col).2 = b := by
      simp [HexBoard.place, hl]
    rw [hplace]
    simp only [HexBoard.take, HexBoard.setCell]
    cases b with
    | mk size board =>
      simp only [HexBoard.mk.injEq, true_and]
      simp only [HexBoard.getCell] at he
      simp only at hx hy ⊢
      rw [listSet_of_getD _ _ _ _ hy he]
      exact listSet_of_getD _ _ _ _ hx rfl

/-- Concrete 2×2 board with a blue stone on `(0,0)`, used as counterexample. -/
def boardC7 : HexBoard :=
  ⟨2, [[some .blue, none], [none, none]]⟩

/-! ### Injectivity of the board encoding -/

/-- Cell digits are distinct from the structural characters of the encoding. -/
theorem cellChar_structural (c : Cell) :
    HexBoard.cellChar c ≠ ']' ∧ HexBoard.cellChar c ≠ ' ' ∧
      HexBoard.cellChar c ≠ '\n' := by
  cases c with
  | none => refine ⟨by decide, by decide, by decide⟩
  | some cc => cases cc <;> refine ⟨by decide, by decide, by decide⟩

/-- Cell digits are pairwise distinct. -/
theorem cellChar_inj (c1 c2 : Cell) :
    HexBoard.cellChar c1 = HexBoard.cellChar c2 → c1 = c2 := by
  cases c1 with
  | none => cases c2 with
    | none => intro _; rfl
    | some d => cases d <;> (intro h; exact absurd h (by decide))
  | some c => cases c2 with
    | none => cases c <;> (intro h; exact absurd h (by decide))
    | some d => cases c <;> cases d <;> (intro h; first | rfl | exact absurd h (by decide))

/-- A printed row determines the row and whatever follows it. -/
theorem rowChars_cancel :
    ∀ (r1 r2 : List Cell) (s1 s2 : List Char),
      HexBoard.rowChars r1 ++ s1 = HexBoard.rowChars r2 ++ s2 →
        r1 = r2 ∧ s1 = s2 := by
  intro r1
  induction r1 with
  | nil =>
    intro r2 s1 s2 h
    cases r2 with
    | nil => exact ⟨rfl, by simpa [HexBoard.rowChars] using h⟩
    | cons c cs =>
      exfalso
      cases cs with
      | nil =>
        simp only [HexBoard.rowChars, List.cons_append, List.nil_append,
          List.cons.injEq] at h
        exact (cellChar_structural c).1 h.1.symm
      | cons c' cs' =>
        simp only [HexBoard.rowChars, List.cons_append, List.cons.injEq] at h
        exact (cellChar_structural c).1 h.1.symm
  | cons c cs ih =>
    intro r2 s1 s2 h
    cases cs with
    | nil =>
      cases r2 with
      | nil =>
        exfalso
        simp only [HexBoard.rowChars, List.cons_append, List.nil_append,
          List.cons.injEq] at h
        exact (cellChar_structural c).1 h.1
      | cons d ds =>
        cases ds with
        | nil =>
          simp only [HexBoard.rowChars, List.cons_append, List.cons.injEq] at h
          exact ⟨by rw [cellChar_inj _ _ h.1], h.2.2⟩
        | cons d' ds' =>
          exfalso
          simp only [HexBoard.rowChars, List.cons_append, List.cons.injEq] at h
          exact absurd h.2.1 (by decide)
    | cons c' cs' =>
      cases r2 with
      | nil =>
        exfalso
        simp only [HexBoard.rowChars, List.cons_append, List.nil_append,
          List.cons.injEq] at h
        exact (cellChar_structural c).1 h.1
      | cons d ds =>
        cases ds with
        | nil =>
          exfalso
          simp only [HexBoard.rowChars, List.cons_append, List.cons.injEq] at h
          exact absurd h.2.1 (by decide)
        | cons d' ds' =>
          simp only [HexBoard.rowChars, List.cons_append, List.cons.injEq,
            true_and] at h
          obtain ⟨h1, h2⟩ := h
          obtain ⟨hr, hs⟩ := ih (d' :: ds') s1 s2 h2
          exact ⟨by rw [cellChar_inj _ _ h1, hr], hs⟩

/-- The row block of the encoding determines the grid. -/
theorem rowsChars_inj :
    ∀ (g1 g2 : List (List Cell)),
      HexBoard.rowsChars g1 = HexBoard.rowsChars g2 → g1 = g2 := by
  intro g1
  induction g1 with
  | nil =>
    intro g2 h
    cases g2 with
    | nil => rfl
    | cons r rs =>
      exfalso
      cases rs <;> simp [HexBoard.rowsChars] at h
  | cons r rs ih =>
    intro g2 h
    cases rs with
    | nil =>
      cases g2 with
      | nil => exfalso; cases h
      | cons q qs =>
        cases qs with
        | nil =>
          simp only [HexBoard.rowsChars, List.cons.injEq, true_and] at h
          have := rowChars_cancel r q [] []
            (by rw [List.append_nil, List.append_nil]; exact h)
          rw [this.1]
        | cons q' qs' =>
          exfalso
          simp only [HexBoard.rowsChars, List.cons_append, List.cons.injEq,
            true_and] at h
          have := rowChars_cancel r q [] ('\n' :: ' ' :: HexBoard.rowsChars (q' :: qs'))
            (by rw [List.append_nil]; exact h)
          cases this.2
    | cons r' rs' =>
      cases g2 with
      | nil => exfalso; cases h
      | cons q qs =>
        cases qs with
        | nil =>
          exfalso
          simp only [HexBoard.rowsChars, List.cons_append, List.cons.injEq,
            true_and] at h
          have := rowChars_cancel r q ('\n' :: ' ' :: HexBoard.rowsChars (r' :: rs')) []
            (by rw [List.append_nil]; exact h)
          cases this.2
        | cons q' qs' =>
          simp only [HexBoard.rowsChars, List.cons_append, List.cons.injEq,
            true_and] at h
          have hc := rowChars_cancel r q
            ('\n' :: ' ' :: HexBoard.rowsChars (r' :: rs'))
            ('\n' :: ' ' :: HexBoard.rowsChars (q' :: qs')) h
          have ht : HexBoard.rowsChars (r' :: rs') = HexBoard.rowsChars (q' :: qs') := by
            have := hc.2
            simpa using this
          rw [hc.1, ih (q' :: qs') ht]

/-- `tostring` determines the grid contents. -/
theorem tostring_inj (b1 b2 : HexBoard) :
    b1.tostring = b2.tostring → b1.board = b2.board := by
  intro h
  rw [HexBoard.tostring, HexBoard.tostring] at h
  injection h with h1 h2
  exact rowsChars_inj _ _ (List.append_cancel_right h2)

/-- Two separately constructed boards with identical cell contents. -/
def boardC6a : HexBoard := ⟨2, [[none, some .blue], [none, none]]⟩

/-- Same contents as `boardC6a`, built as a distinct term. -/
def boardC6b : HexBoard := ⟨2, [[none, some .blue], [none, none]]⟩

/-- C6: the board encoding is a total deterministic function of the cell
contents alone — boards with equal contents encode equal, and for every board
size in 2..25 two boards of that size with distinct cell contents never encode
to the same string. -/
theorem claim_C6_encoding :
    (∀ b1 b2 : HexBoard, b1.board = b2.board → b1.tostring = b2.tostring) ∧
    (∀ n : Nat, 2 ≤ n → n ≤ 25 → ∀ b1 b2 : HexBoard,
      b1.size = n → b2.size = n → b1.tostring = b2.tostring →
        b1.board = b2.board) := by
  constructor
  · intro b1 b2 h
    simp [HexBoard.tostring, h]
  · intro n _ _ b1 b2 _ _ h
    exact tostring_inj _ _ h

/-- Witness for C6 on concrete 2×2 boards. -/
theorem claim_C6_encoding_witness :
    HexBoard.tostring boardC6a = HexBoard.tostring boardC6b ∧
      boardC6a.board = boardC6b.board :=
  ⟨claim_C6_encoding.1 boardC6a boardC6b (by decide),
   claim_C6_encoding.2 2 (by decide) (by decide) boardC6a boardC6b rfl rfl (by decide)⟩

/-- C7 counterexample: on the board with a blue stone at `(0,0)`, `place((0,0),
red)` fails as a no-op, but `take((0,0))` then unconditionally empties the
occupied cell, so the encoding after place-then-take differs from the encoding
before — the claim quantifies over every in-bounds cell, including occupied
ones, and is false there. -/
theorem claim_C7_counterexample :
    HexBoard.tostring (HexBoard.take (boardC7.place (0, 0) .red).2 (0, 0)) ≠
      HexBoard.tostring boardC7 := by decide

/-- C7 (amended): for every board and in-bounds cell that is EMPTY (so that
`place` succeeds), `place(c, color)` followed by `remove(c)` yields a board
whose encoding is identical to the encoding before the place. -/
theorem claim_C7_place_take :
    ∀ (b : HexBoard) (m : Coord) (col : Color), b.WF →
      b.is_legal_move m = true → b.getCell m = none →
      HexBoard.tostring (HexBoard.take (b.place m col).2 m) =
        HexBoard.tostring b := by
  intro b m col hwf hl he
  have hsz : m.1 < b.size ∧ m.2 < b.size := by
    simpa [HexBoard.is_legal_move] using hl
  have hx : m.1 < b.board.length := by rw [hwf.1]; exact hsz.1
  have hy : m.2 < (b.board.getD m.1 []).length := by
    have hrow : b.board.getD m.1 [] ∈ b.board := by
      rw [List.getD_eq_getElem b.board [] hx]
      exact List.getElem_mem hx
    rw [hwf.2 _ hrow]
    exact hsz.2
  rw [take_place_eq b m col hx hy he]

/-- Witness for the amended C7 on a concrete board and empty cell. -/
theorem claim_C7_place_take_witness :
    boardC7.WF ∧ boardC7.is_legal_move (0, 1) = true ∧
      boardC7.getCell (0, 1) = none ∧
      HexBoard.tostring (HexBoard.take (boardC7.place (0, 1) .red).2 (0, 1)) =
        HexBoard.tostring boardC7 :=
  ⟨by constructor <;> decide, by decide, by decide,
   claim_C7_place_take boardC7 (0, 1) .red ⟨by decide, by decide⟩
     (by decide) (by decide)⟩

/-! ### Properties of the empty-cell enumeration -/

/-- Members of a row scan: correct row, column past the start offset, and the
scanned entry is empty. -/
theorem mem_rowEmpties :
    ∀ (r : List Cell) (x y0 a c : Nat), (a, c) ∈ HexBoard.rowEmpties x y0 r →
      a = x ∧ y0 ≤ c ∧ c - y0 < r.length ∧ r.getD (c - y0) none = none := by
  intro r
  induction r with
  | nil => intro x y0 a c h; simp [HexBoard.rowEmpties] at h
  | cons cell cs ih =>
    intro x y0 a c h
    simp only [HexBoard.rowEmpties] at h
    by_cases hc : cell = none
    · rw [if_pos hc] at h
      rcases List.mem_cons.mp h with heq | htail
      · simp only [Prod.mk.injEq] at heq
        obtain ⟨ha, hcy⟩ := heq
        subst ha
        subst hcy
        exact ⟨rfl, Nat.le_refl _, by simp, by simp [List.getD, hc]⟩
      · obtain ⟨h1, h2, h3, h4⟩ := ih x (y0 + 1) a c htail
        refine ⟨h1, by omega, by simp; omega, ?_⟩
        have hcy : c - y0 = (c - (y0 + 1)) + 1 := by omega
        rw [hcy]
        simpa [List.getD] using h4
    · rw [if_neg hc] at h
      obtain ⟨h1, h2, h3, h4⟩ := ih x (y0 + 1) a c h
      refine ⟨h1, by omega, by simp; omega, ?_⟩
      have hcy : c - y0 = (c - (y0 + 1)) + 1 := by omega
      rw [hcy]
      simpa [List.getD] using h4

/-- Members of the grid scan: row past the start offset, in range, and the
row scan owns the member. -/
theorem mem_boardEmpties :
    ∀ (g : List (List Cell)) (x0 a c : Nat), (a, c) ∈ HexBoard.boardEmpties x0 g →
      x0 ≤ a ∧ a - x0 < g.length ∧
        (a, c) ∈ HexBoard.rowEmpties a 0 (g.getD (a - x0) []) := by
  intro g
  induction g with
  | nil => intro x0 a c h; simp [HexBoard.boardEmpties] at h
  | cons r rs ih =>
    intro x0 a c h
    simp only [HexBoard.boardEmpties] at h
    rcases List.mem_append.mp h with hrow | hrest
    · have hx := (mem_rowEmpties r x0 0 a c hrow).1
      subst hx
      exact ⟨Nat.le_refl _, by simp, by simpa [List.getD] using hrow⟩
    · obtain ⟨h1, h2, h3⟩ := ih (x0 + 1) a c hrest
      have hax : a - x0 = (a - (x0 + 1)) + 1 := by omega
      exact ⟨by omega, by simp; omega, by rw [hax]; simpa [List.getD] using h3⟩

/-- A member of `get_empty_cells` is in the grid structure and is empty. -/
theorem mem_get_empty_cells (b : HexBoard) (m : Coord) :
    m ∈ b.get_empty_cells →
      m.1 < b.board.length ∧ m.2 < (b.board.getD m.1 []).length ∧
        b.getCell m = none := by
  obtain ⟨a, c⟩ := m
  intro h
  obtain ⟨_, h2, h3⟩ := mem_boardEmpties b.board 0 a c h
  obtain ⟨_, _, h6, h7⟩ := mem_rowEmpties _ a 0 a c h3
  simp only [Nat.sub_zero] at h2 h6 h7 ⊢
  exact ⟨h2, h6, by simpa [HexBoard.getCell] using h7⟩

/-- Columns produced by a row scan lie at or past the start offset. -/
theorem rowEmpties_col_ge (r : List Cell) (x y0 a c : Nat)
    (h : (a, c) ∈ HexBoard.rowEmpties x y0 r) : y0 ≤ c :=
  (mem_rowEmpties r x y0 a c h).2.1

/-- A row scan never repeats a coordinate. -/
theorem rowEmpties_nodup :
    ∀ (r : List Cell) (x y0 : Nat), (HexBoard.rowEmpties x y0 r).Nodup := by
  intro r
  induction r with
  | nil => intro x y0; simp [HexBoard.rowEmpties]
  | cons cell cs ih =>
    intro x y0
    simp only [HexBoard.rowEmpties]
    by_cases hc : cell = none
    · rw [if_pos hc]
      refine List.nodup_cons.mpr ⟨?_, ih x (y0 + 1)⟩
      intro hmem
      have := rowEmpties_col_ge cs x (y0 + 1) x y0 hmem
      omega
    · rw [if_neg hc]
      exact ih x (y0 + 1)

/-- Rows produced by the grid scan lie at or past the start offset. -/
theorem boardEmpties_row_ge (g : List (List Cell)) (x0 a c : Nat)
    (h : (a, c) ∈ HexBoard.boardEmpties x0 g) : x0 ≤ a :=
  (mem_boardEmpties g x0 a c h).1

/-- The grid scan never repeats a coordinate. -/
theorem boardEmpties_nodup :
    ∀ (g : List (List Cell)) (x0 : Nat), (HexBoard.boardEmpties x0 g).Nodup := by
  intro g
  induction g with
  | nil => intro x0; simp [HexBoard.boardEmpties]
  | cons r rs ih =>
    intro x0
    simp only [HexBoard.boardEmpties]
    refine List.Nodup.append (rowEmpties_nodup r x0 0) (ih (x0 + 1)) ?_
    intro p hp hq
    obtain ⟨a, c⟩ := p
    have h1 := (mem_rowEmpties r x0 0 a c hp).1
    have h2 := boardEmpties_row_ge rs (x0 + 1) a c hq
    omega

/-- `get_empty_cells` lists each empty cell exactly once. -/
theorem get_empty_cells_nodup (b : HexBoard) : b.get_empty_cells.Nodup :=
  boardEmpties_nodup b.board 0

/-! ### Transposition table -/

/-- The table: a mapping from position keys to per-depth `(move, score)`
records, as an association list mirroring the Python nested dicts. -/
abbrev TranspositionTable := List (List Char × List (Nat × Coord × Int))

/-- `self.move_list[state][depth] = (move, score)`: insert or overwrite the
record at one depth, keeping the records at all other depths. -/
def TranspositionTable.innerStore (depth : Nat) (m : Coord) (s : Int) :
    List (Nat × Coord × Int) → List (Nat × Coord × Int)
  | [] => [(depth, m, s)]
  | (d, e) :: rest =>
    if d = depth then (d, (m, s)) :: rest
    else (d, e) :: TranspositionTable.innerStore depth m s rest

/-- `TranspositionTable.store`. -/
def TranspositionTable.store (depth : Nat) (key : List Char) (m : Coord)
    (s : Int) : TranspositionTable → TranspositionTable
  | [] => [(key, [(depth, m, s)])]
  | (k, inner) :: rest =>
    if k = key then (k, TranspositionTable.innerStore depth m s inner) :: rest
    else (k, inner) :: TranspositionTable.store depth key m s rest

/-- Finding the per-depth record list of a key. -/
def TranspositionTable.findKey (key : List Char) :
    TranspositionTable → Option (List (Nat × Coord × Int))
  | [] => none
  | (k, inner) :: rest =>
    if k = key then some inner else TranspositionTable.findKey key rest

/-- Finding the record at one exact depth. -/
def TranspositionTable.innerFind (depth : Nat) :
    List (Nat × Coord × Int) → Option (Coord × Int)
  | [] => none
  | (d, e) :: rest =>
    if d = depth then some e else TranspositionTable.innerFind depth rest

/-- The record at the greatest stored depth
(`np.max(depths)` followed by the dict read). -/
def TranspositionTable.maxEntry (e : Nat × Coord × Int) :
    List (Nat × Coord × Int) → Nat × Coord × Int
  | [] => e
  | f :: rest =>
    if f.1 > e.1 then TranspositionTable.maxEntry f rest
    else TranspositionTable.maxEntry e rest

/-- `TranspositionTable.lookup`: `(0, None, None)` on a miss, hit code 1 with
the deepest stored record when the key is present but not at this depth, hit
code 2 with the exact record when present at this depth. -/
def TranspositionTable.lookup (depth : Nat) (key : List Char)
    (tt : TranspositionTable) : Nat × Option Coord × Option Int :=
  match TranspositionTable.findKey key tt with
  | none => (0, none, none)
  | some inner =>
    match TranspositionTable.innerFind depth inner with
    | some (m, s) => (2, some m, some s)
    | none =>
      match inner with
      | [] => (0, none, none)
      | e :: rest =>
        let best := TranspositionTable.maxEntry e rest
        (1, some best.2.1, some best.2.2)

/-- A record found at an exact depth is a member of the record list. -/
theorem innerFind_mem :
    ∀ (inner : List (Nat × Coord × Int)) (d : Nat) (e : Coord × Int),
      TranspositionTable.innerFind d inner = some e → (d, e) ∈ inner := by
  intro inner
  induction inner with
  | nil => intro d e h; cases h
  | cons f rest ih =>
    intro d e h
    obtain ⟨d0, e0⟩ := f
    simp only [TranspositionTable.innerFind] at h
    by_cases hd : d0 = d
    · rw [if_pos hd] at h
      injection h with h
      subst hd
      subst h
      exact List.mem_cons_self _ _
    · rw [if_neg hd] at h
      exact List.mem_cons_of_mem _ (ih d e h)

/-- The deepest record is a member of the record list. -/
theorem maxEntry_mem :
    ∀ (rest : List (Nat × Coord × Int)) (e : Nat × Coord × Int),
      TranspositionTable.maxEntry e rest ∈ e :: rest := by
  intro rest
  induction rest with
  | nil => intro e; simp [TranspositionTable.maxEntry]
  | cons f rest ih =>
    intro e
    simp only [TranspositionTable.maxEntry]
    by_cases hgt : f.1 > e.1
    · rw [if_pos hgt]
      rcases List.mem_cons.mp (ih f) with h | h
      · rw [h]; simp
      · exact List.mem_cons_of_mem _ (List.mem_cons_of_mem _ h)
    · rw [if_neg hgt]
      rcases List.mem_cons.mp (ih e) with h | h
      · rw [h]; simp
      · exact List.mem_cons_of_mem _ (List.mem_cons_of_mem _ h)

/-- A key found in the table is a member of the table. -/
theorem findKey_mem :
    ∀ (tt : TranspositionTable) (key : List Char) (inner : List (Nat × Coord × Int)),
      TranspositionTable.findKey key tt = some inner → (key, inner) ∈ tt := by
  intro tt
  induction tt with
  | nil => intro key inner h; cases h
  | cons p rest ih =>
    intro key inner h
    obtain ⟨k0, i0⟩ := p
    simp only [TranspositionTable.findKey] at h
    by_cases hk : k0 = key
    · rw [if_pos hk] at h
      injection h with h
      subst hk
      subst h
      exact List.mem_cons_self _ _
    · rw [if_neg hk] at h
      exact List.mem_cons_of_mem _ (ih key inner h)

/-- Table consistency: every stored move is an empty cell of every board whose
encoding is the entry's key.  This holds for the empty table a player starts a
game with, and `alphabeta_nega` preserves it (proved below): a stored best
move always comes from the move enumeration of the keyed position. -/
def ttConsistent (tt : TranspositionTable) : Prop :=
  ∀ k inner, (k, inner) ∈ tt → ∀ d m s, (d, (m, s)) ∈ inner →
    ∀ b : HexBoard, b.tostring = k → m ∈ b.get_empty_cells

/-- The empty table is consistent. -/
theorem ttConsistent_nil : ttConsistent [] := by
  intro k inner h
  cases h

/-- Any move a lookup returns (as hit move of either kind) is a stored move of
the looked-up key. -/
theorem lookup_hint_mem (depth : Nat) (key : List Char) (tt : TranspositionTable)
    (h : Nat) (m : Coord) (s : Option Int)
    (hl : TranspositionTable.lookup depth key tt = (h, some m, s)) :
    ∃ inner d' s', (key, inner) ∈ tt ∧ (d', (m, s')) ∈ inner := by
  unfold TranspositionTable.lookup at hl
  cases hk : TranspositionTable.findKey key tt with
  | none => rw [hk] at hl; cases hl
  | some inner =>
    rw [hk] at hl
    dsimp only at hl
    cases hf : TranspositionTable.innerFind depth inner with
    | some e =>
      obtain ⟨m0, s0⟩ := e
      rw [hf] at hl
      dsimp only at hl
      simp only [Prod.mk.injEq, Option.some.injEq] at hl
      refine ⟨inner, depth, s0, findKey_mem tt key inner hk, ?_⟩
      rw [← hl.2.1]
      exact innerFind_mem inner depth (m0, s0) hf
    | none =>
      rw [hf] at hl
      dsimp only at hl
      cases inner with
      | nil => cases hl
      | cons e rest =>
        simp only [Prod.mk.injEq, Option.some.injEq] at hl
        refine ⟨e :: rest, (TranspositionTable.maxEntry e rest).1,
          (TranspositionTable.maxEntry e rest).2.2,
          findKey_mem tt key _ hk, ?_⟩
        rw [← hl.2.1]
        exact maxEntry_mem rest e

/-- Members of `innerStore` are the new record or old members. -/
theorem innerStore_mem (depth : Nat) (m : Coord) (s : Int) :
    ∀ (inner : List (Nat × Coord × Int)) (d' : Nat) (e' : Coord × Int),
      (d', e') ∈ TranspositionTable.innerStore depth m s inner →
        (d' = depth ∧ e' = (m, s)) ∨ (d', e') ∈ inner := by
  intro inner
  induction inner with
  | nil =>
    intro d' e' h
    simp only [TranspositionTable.innerStore, List.mem_singleton,
      Prod.mk.injEq] at h
    exact Or.inl ⟨h.1, h.2⟩
  | cons f rest ih =>
    intro d' e' h
    obtain ⟨d0, e0⟩ := f
    simp only [TranspositionTable.innerStore] at h
    by_cases hd : d0 = depth
    · rw [if_pos hd] at h
      rcases List.mem_cons.mp h with heq | htail
      · simp only [Prod.mk.injEq] at heq
        exact Or.inl ⟨by omega, heq.2⟩
      · exact Or.inr (List.mem_cons_of_mem _ htail)
    · rw [if_neg hd] at h
      rcases List.mem_cons.mp h with heq | htail
      · exact Or.inr (heq ▸ List.mem_cons_self _ _)
      · rcases ih d' e' htail with hnew | hold
        · exact Or.inl hnew
        · exact Or.inr (List.mem_cons_of_mem _ hold)

/-- Members of `store` are old members or the updated record list of the
stored key. -/
theorem store_mem (depth : Nat) (key : List Char) (m : Coord) (s : Int) :
    ∀ (tt : TranspositionTable) (k : List Char) (inner' : List (Nat × Coord × Int)),
      (k, inner') ∈ TranspositionTable.store depth key m s tt →
        (k, inner') ∈ tt ∨
        (k = key ∧ ∃ base, inner' = TranspositionTable.innerStore depth m s base ∧
          (base = [] ∨ (k, base) ∈ tt)) := by
  intro tt
  induction tt with
  | nil =>
    intro k inner' h
    simp only [TranspositionTable.store, List.mem_singleton, Prod.mk.injEq] at h
    exact Or.inr ⟨h.1, [], by simpa [TranspositionTable.innerStore] using h.2,
      Or.inl rfl⟩
  | cons p rest ih =>
    intro k inner' h
    obtain ⟨k0, i0⟩ := p
    simp only [TranspositionTable.store] at h
    by_cases hk : k0 = key
    · rw [if_pos hk] at h
      rcases List.mem_cons.mp h with heq | htail
      · simp only [Prod.mk.injEq] at heq
        exact Or.inr ⟨heq.1 ▸ hk, i0, heq.2,
          Or.inr (heq.1 ▸ List.mem_cons_self _ _)⟩
      · exact Or.inl (List.mem_cons_of_mem _ htail)
    · rw [if_neg hk] at h
      rcases List.mem_cons.mp h with heq | htail
      · exact Or.inl (heq ▸ List.mem_cons_self _ _)
      · rcases ih k inner' htail with hold | ⟨hkey, base, hbase, hin⟩
        · exact Or.inl (List.mem_cons_of_mem _ hold)
        · refine Or.inr ⟨hkey, base, hbase, ?_⟩
          rcases hin with h0 | h0
          · exact Or.inl h0
          · exact Or.inr (List.mem_cons_of_mem _ h0)

/-- Storing a move that is an empty cell of every board encoding to the key
preserves table consistency. -/
theorem ttConsistent_store (tt : TranspositionTable) (depth : Nat)
    (key : List Char) (m : Coord) (s : Int) (hc : ttConsistent tt)
    (hm : ∀ b : HexBoard, b.tostring = key → m ∈ b.get_empty_cells) :
    ttConsistent (TranspositionTable.store depth key m s tt) := by
  intro k inner hmem d' m' s' hinner b hb
  rcases store_mem depth key m s tt k inner hmem with horig | ⟨hk, base, hbase, hin⟩
  · exact hc k inner horig d' m' s' hinner b hb
  · subst hbase
    rcases innerStore_mem depth m s base d' (m', s') hinner with ⟨_, he⟩ | hold
    · have hm' : m' = m := by
        have := congrArg Prod.fst he
        simpa using this
      subst hm'
      exact hm b (hk ▸ hb)
    · rcases hin with h0 | h0
      · subst h0; cases hold
      · exact hc k base h0 d' m' s' hold b hb

/-! ### Move enumeration of the alpha-beta search (claim C4) -/

/-- The candidate-move sequence built at a non-terminal node
(`moves = self.get_moves()` then `moves = [tt_move] + moves` when the table
supplied a hint): the hint is PREPENDED to the row-major empty-cell list, the
original occurrence of the hint is not removed. -/
def orderedMoves (hint : Option Coord) (b : HexBoard) : List Coord :=
  match hint with
  | some m => m :: b.get_empty_cells
  | none => b.get_empty_cells

/-- The empty 2×2 board. -/
def board2 : HexBoard := ⟨2, [[none, none], [none, none]]⟩

/-- Occurrence count of a coordinate in a move list. -/
def countCoord (a : Coord) : List Coord → Nat
  | [] => 0
  | x :: xs => (if x = a then 1 else 0) + countCoord a xs

/-- A coordinate absent from a list has count zero. -/
theorem countCoord_eq_zero (a : Coord) :
    ∀ l : List Coord, a ∉ l → countCoord a l = 0 := by
  intro l
  induction l with
  | nil => intro _; rfl
  | cons x xs ih =>
    intro h
    have hx : ¬ x = a := fun he => h (he ▸ List.mem_cons_self _ _)
    simp only [countCoord, if_neg hx, Nat.zero_add]
    exact ih fun hm => h (List.mem_cons_of_mem _ hm)

/-- In a list without duplicates, a member has count one. -/
theorem countCoord_eq_one (a : Coord) :
    ∀ l : List Coord, l.Nodup → a ∈ l → countCoord a l = 1 := by
  intro l
  induction l with
  | nil => intro _ h; cases h
  | cons x xs ih =>
    intro hnd hm
    obtain ⟨hx, hxs⟩ := List.nodup_cons.mp hnd
    rcases List.mem_cons.mp hm with heq | htail
    · subst heq
      simp [countCoord, countCoord_eq_zero a xs hx]
    · have hne : ¬ x = a := fun he => hx (he ▸ htail)
      simp only [countCoord, if_neg hne, Nat.zero_add]
      exact ih hxs htail

/-- A table holding the empty 2×2 board only at depth 5, so a depth-2 lookup
is a PartialHit supplying hint move `(0,0)`. -/
def ttC4 : TranspositionTable := [(board2.tostring, [(5, ((0, 0), 3))])]

/-- C4 counterexample: on the empty 2×2 board with a PartialHit supplying hint
`(0,0)`, the tried-move sequence contains the legal move `(0,0)` twice — the
hint is prepended, not relocated, so the sequence is not the empty cells with
the hint moved to the front (each legal move once) as the claim states. -/
theorem claim_C4_counterexample :
    TranspositionTable.lookup 2 board2.tostring ttC4 = (1, some (0, 0), some 3) ∧
    (0, 0) ∈ board2.get_empty_cells ∧
    countCoord (0, 0) (orderedMoves (some (0, 0)) board2) = 2 := by
  refine ⟨by decide, by decide, by decide⟩

/-- C4 (amended): at a non-terminal node the tried-move sequence is the
board's current empty cells in deterministic row-major order with the hint
move (when a PartialHit supplies one) PREPENDED to the front without removing
its original occurrence: the hint appears exactly twice and every other legal
move exactly once; without a hint every legal move appears exactly once. -/
theorem claim_C4_move_ordering (b : HexBoard) (h : Coord)
    (hmem : h ∈ b.get_empty_cells) :
    orderedMoves (some h) b = h :: b.get_empty_cells ∧
    countCoord h (orderedMoves (some h) b) = 2 ∧
    (∀ m ∈ b.get_empty_cells, m ≠ h →
      countCoord m (orderedMoves (some h) b) = 1) ∧
    (∀ m ∈ orderedMoves none b, countCoord m (orderedMoves none b) = 1) := by
  refine ⟨rfl, ?_, ?_, ?_⟩
  · simp [orderedMoves, countCoord,
      countCoord_eq_one h _ (get_empty_cells_nodup b) hmem]
  · intro m hm hne
    simp [orderedMoves, countCoord, Ne.symm hne,
      countCoord_eq_one m _ (get_empty_cells_nodup b) hm]
  · intro m hm
    simp only [orderedMoves] at hm ⊢
    exact countCoord_eq_one m _ (get_empty_cells_nodup b) hm

/-- Witness for the amended C4 on the empty 2×2 board with hint `(0,0)`. -/
theorem claim_C4_move_ordering_witness :
    (0, 0) ∈ board2.get_empty_cells ∧
      countCoord (0, 0) (orderedMoves (some (0, 0)) board2) = 2 :=
  ⟨by decide, (claim_C4_move_ordering board2 (0, 0) (by decide)).2.1⟩

/-! ### The alpha-beta search (`alphabeta_nega`) -/

/-- `INF = 9999`. -/
def INF : Int := 9999

/-- `LOSE = 1000` — win value higher than any possible score, lower than INF. -/
def LOSE : Int := 1000

/-- The player configuration the search reads: the use-transposition-table
flag, the evaluation function `self.eval` (a pure function of the mover and
the board: `eval_dijkstra`, or any other evaluator), and the active deadline
`turn_timer + max_time` as a tick threshold (`none` models
`turn_timer is None`). -/
structure ABParams where
  useTt : Bool
  evalFn : Color → HexBoard → Int
  deadline : Option Nat

/-- The mutable player state the search threads: the live board, the
transposition table, and the tick clock advanced by each `time()` call. -/
structure ABState where
  board : HexBoard
  tt : TranspositionTable
  clock : Nat
deriving DecidableEq, Repr

deriving instance DecidableEq for Except

/-- `self.turn_timer is not None and time() > self.turn_timer + self.max_time`. -/
def deadlineExceeded (dl : Option Nat) (clock : Nat) : Bool :=
  match dl with
  | some d => decide (clock > d)
  | none => false

/-- Outcome of the move loop of one `alphabeta_nega` activation:
`aborted` is the early `return best_value, best_move` taken when a child
returned the abort sentinel (the table store is skipped), `done` is normal
completion or the pruning break (the table store runs), `err` is a
propagating exception. -/
inductive LoopRes where
  | aborted (bv : Int) (bm : Option Coord)
  | done (bv : Int) (bm : Option Coord)
  | err
deriving DecidableEq, Repr

/-- The `for move in moves` loop of `alphabeta_nega` (source lines 287–311),
with the recursive search call abstracted as `child`:
place the move (return value discarded, as in the source), recurse, on the
sentinel undo and return early with the current partial best, otherwise negate
the child score, update the best pair, undo, raise alpha and break once
`alpha >= beta`.  A child exception propagates immediately (no undo, like the
Python exception). -/
def abLoop
    (child : Color → Int → Int → ABState → ABState × Except Unit (Option Int × Option Coord))
    (color : Color) (beta : Int) :
    List Coord → ABState → Int → Int → Option Coord → ABState × LoopRes
  | [], st, _, bv, bm => (st, .done bv bm)
  | m :: rest, st, alpha, bv, bm =>
    let st1 : ABState := { st with board := (st.board.place m color).2 }
    let cres := child color.opp (-beta) (-alpha) st1
    match cres.2 with
    | .error _ => (cres.1, .err)
    | .ok (none, _) =>
      ({ cres.1 with board := cres.1.board.take m }, .aborted bv bm)
    | .ok (some v, _) =>
      let nv := -v
      let bv' := if nv > bv then nv else bv
      let bm' := if nv > bv then some m else bm
      let st3 : ABState := { cres.1 with board := cres.1.board.take m }
      let alpha' := max alpha bv'
      if alpha' ≥ beta then (st3, .done bv' bm')
      else abLoop child color beta rest st3 alpha' bv' bm'

/-- The entry `time()` call: the clock ticks exactly when a deadline is
active (`self.turn_timer is not None`), since the deadline conjunction
short-circuits otherwise. -/
def abTick (dl : Option Nat) (st : ABState) : ABState :=
  if dl.isSome then { st with clock := st.clock + 1 } else st

/-- The tick changes no board. -/
theorem abTick_board (dl : Option Nat) (st : ABState) :
    (abTick dl st).board = st.board := by
  unfold abTick
  split <;> rfl

/-- The tick changes no table. -/
theorem abTick_tt (dl : Option Nat) (st : ABState) :
    (abTick dl st).tt = st.tt := by
  unfold abTick
  split <;> rfl

/-- The body of one `AlphaBetaPlayer.alphabeta_nega` activation, with the
recursive search call abstracted as `child`.  The result pair is the state
after the call and the returned `(value, move)` pair: `.ok (none, none)` is
the abort sentinel, `.ok (some v, m)` a normal return, `.error ()` a raised
`AssertionError` (`assert best_move is not None` with the table on and no move
found).  The clock ticks once per `time()` call, which happens exactly when a
deadline is active. -/
def abBody (p : ABParams)
    (child : Color → Int → Int → ABState →
      ABState × Except Unit (Option Int × Option Coord))
    (depth : Nat) (color : Color) (alpha beta : Int) (st0 : ABState) :
    ABState × Except Unit (Option Int × Option Coord) :=
  let st : ABState := abTick p.deadline st0
  if deadlineExceeded p.deadline st.clock then (st, .ok (none, none))
  else
    let probe :=
      if p.useTt then TranspositionTable.lookup depth st.board.tostring st.tt
      else (0, none, none)
    if p.useTt ∧ probe.1 = 2 then (st, .ok (probe.2.2, probe.2.1))
    else if depth = 0 ∨ st.board.check_win color.opp = true then
      (st, .ok (some (p.evalFn color st.board), none))
    else
      let moves := orderedMoves (if p.useTt then probe.2.1 else none) st.board
      let res := abLoop child color beta moves st alpha (-INF) none
      match res.2 with
      | .aborted bv bm => (res.1, .ok (some bv, bm))
      | .err => (res.1, .error ())
      | .done bv bm =>
        if p.useTt then
          match bm with
          | none => (res.1, .error ())
          | some mv =>
            ({ res.1 with
                tt := TranspositionTable.store depth res.1.board.tostring mv bv res.1.tt },
              .ok (some bv, some mv))
        else (res.1, .ok (some bv, bm))

/-- `AlphaBetaPlayer.alphabeta_nega`: the body above with `child` the
recursive call at `depth - 1`.  At depth 0 the terminal test fires before the
move loop, so the child of the depth-0 case is never invoked; it is set to a
constant so the recursion is structural on the depth. -/
def alphabeta_nega (p : ABParams) : Nat → Color → Int → Int → ABState →
    ABState × Except Unit (Option Int × Option Coord)
  | 0, color, alpha, beta, st0 =>
    abBody p (fun _ _ _ s => (s, .ok (none, none))) 0 color alpha beta st0
  | d + 1, color, alpha, beta, st0 =>
    abBody p (fun c a b s => alphabeta_nega p d c a b s) (d + 1) color alpha beta st0

/-- Alpha-beta player configuration with no table, constant evaluator, and
deadline threshold 1, used in the C1 scenario. -/
def pC1 : ABParams := ⟨false, fun _ _ => 0, some 1⟩

/-- Search state at the root of the C1 scenario: empty 2×2 board, clock 0. -/
def stC1 : ABState := ⟨board2, [], 0⟩

/-- The state the C1 root passes to its first child: hint-free first move
`(0,0)` placed, one tick consumed by the root's own deadline check. -/
def stC1in : ABState := ⟨board2, [], 1⟩

/-- C1 counterexample: in the concrete run of `alphabeta_nega` at depth 1 on
the empty 2×2 board with deadline threshold 1, the recursive depth-0 call on
the first placed move returns the abort sentinel `(None, None)`, but the
caller returns `(best_value, best_move) = (-INF, None)`, not the sentinel —
the sentinel is not propagated unchanged. -/
theorem claim_C1_counterexample :
    (alphabeta_nega pC1 0 Color.blue.opp (-INF) INF
        { stC1in with board := (stC1in.board.place (0, 0) .blue).2 }).2 =
      .ok (none, none) ∧
    (alphabeta_nega pC1 1 .blue (-INF) INF stC1).2 = .ok (some (-INF), none) ∧
    (Except.ok (some (-INF), (none : Option Coord)) :
        Except Unit (Option Int × Option Coord)) ≠ .ok (none, none) := by
  refine ⟨by decide, by decide, by decide⟩

/-- C1 (amended): when a recursive call returns the abort sentinel, the caller
undoes its own placed move and returns early from its move loop with the
partial `(best_value, best_move)` accumulated so far — `(-INF, None)` when no
child had completed — as a `.aborted` result, which `alphabeta_nega` then
returns as `(best_value, best_move)` (skipping the table store); the sentinel
itself is produced only by the entry deadline check, never propagated. -/
theorem claim_C1_abort_handling :
    ∀ (child : Color → Int → Int → ABState →
        ABState × Except Unit (Option Int × Option Coord))
      (color : Color) (beta alpha bv : Int) (bm : Option Coord)
      (m : Coord) (rest : List Coord) (st st2 : ABState),
      child color.opp (-beta) (-alpha)
          { st with board := (st.board.place m color).2 } = (st2, .ok (none, none)) →
      abLoop child color beta (m :: rest) st alpha bv bm =
        ({ st2 with board := st2.board.take m }, .aborted bv bm) := by
  intro child color beta alpha bv bm m rest st st2 h
  simp only [abLoop, h]

/-- Witness for the amended C1: the depth-0 child call of the C1 scenario
returns the sentinel, and the caller's loop undoes the move and returns the
partial best. -/
theorem claim_C1_abort_handling_witness :
    (fun c a b s => alphabeta_nega pC1 0 c a b s) Color.blue.opp
        (-INF) (-(-INF))
        { stC1in with board := (stC1in.board.place (0, 0) .blue).2 } =
      (⟨(board2.place (0, 0) .blue).2, [], 2⟩, .ok (none, none)) ∧
    abLoop (fun c a b s => alphabeta_nega pC1 0 c a b s) .blue INF
        ((0, 0) :: [(0, 1), (1, 0), (1, 1)]) stC1in (-INF) (-INF) none =
      (⟨((board2.place (0, 0) .blue).2).take (0, 0), [], 2⟩, .aborted (-INF) none) :=
  ⟨by decide,
   claim_C1_abort_handling (fun c a b s => alphabeta_nega pC1 0 c a b s)
     .blue INF (-INF) (-INF) none (0, 0) [(0, 1), (1, 0), (1, 1)] stC1in
     ⟨(board2.place (0, 0) .blue).2, [], 2⟩ (by decide)⟩

/-- A table holding the empty 2×2 board at depth 1 with move `(1,1)`,
score 7 — an ExactHit for a depth-1 lookup. -/
def ttC3 : TranspositionTable := [(board2.tostring, [(1, ((1, 1), 7))])]

/-- C3 player configuration: table on, deadline threshold 0 (already
exceeded at entry). -/
def pC3 : ABParams := ⟨true, fun _ _ => 0, some 0⟩

/-- C3 search state: empty 2×2 board, the ExactHit table, clock 0. -/
def stC3 : ABState := ⟨board2, ttC3, 0⟩

/-- C3 counterexample: the table has an ExactHit (hit code 2) for the current
position at the requested depth, but because the wall-clock deadline is
already exceeded at entry — the deadline check precedes the cache probe —
`alphabeta_nega` returns the abort sentinel, not the stored `(score, move)`. -/
theorem claim_C3_counterexample :
    TranspositionTable.lookup 1 board2.tostring ttC3 = (2, some (1, 1), some 7) ∧
    (alphabeta_nega pC3 1 .blue (-INF) INF stC3).2 = .ok (none, none) ∧
    ((Except.ok (none, none) : Except Unit (Option Int × Option Coord)) ≠
      .ok (some 7, some (1, 1))) := by
  refine ⟨by decide, by decide, by decide⟩

/-- C3 (amended): provided the entry deadline check passes (deadline inactive
or not yet exceeded after the entry tick), an ExactHit at the requested depth
makes `alphabeta_nega` return the stored `(score, move)` without recursing:
the board, the table and the clock (beyond the entry tick) are untouched. -/
theorem abBody_exact_hit :
    ∀ (p : ABParams)
      (child : Color → Int → Int → ABState →
        ABState × Except Unit (Option Int × Option Coord))
      (depth : Nat) (color : Color) (alpha beta : Int)
      (st : ABState) (m : Coord) (s : Int),
      p.useTt = true →
      deadlineExceeded p.deadline
        (if p.deadline.isSome then st.clock + 1 else st.clock) = false →
      TranspositionTable.lookup depth st.board.tostring st.tt = (2, some m, some s) →
      abBody p child depth color alpha beta st =
        ((if p.deadline.isSome then { st with clock := st.clock + 1 } else st),
          .ok (some s, some m)) := by
  intro p child depth color alpha beta st m s hTT hdl hlk
  unfold abBody abTick
  by_cases hds : p.deadline.isSome
  · simp only [hds, if_true] at hdl ⊢
    simp only [hdl, Bool.false_eq_true, if_false, hTT, hlk]
    simp
  · simp only [hds, Bool.false_eq_true, if_false] at hdl ⊢
    simp only [hdl, hTT, hlk]
    simp

/-- C3 (amended): provided the entry deadline check passes (deadline inactive
or not yet exceeded after the entry tick), an ExactHit at the requested depth
makes `alphabeta_nega` return the stored `(score, move)` without recursing:
the board, the table and the clock (beyond the entry tick) are untouched. -/
theorem claim_C3_exact_hit :
    ∀ (p : ABParams) (depth : Nat) (color : Color) (alpha beta : Int)
      (st : ABState) (m : Coord) (s : Int),
      p.useTt = true →
      deadlineExceeded p.deadline
        (if p.deadline.isSome then st.clock + 1 else st.clock) = false →
      TranspositionTable.lookup depth st.board.tostring st.tt = (2, some m, some s) →
      alphabeta_nega p depth color alpha beta st =
        ((if p.deadline.isSome then { st with clock := st.clock + 1 } else st),
          .ok (some s, some m)) := by
  intro p depth color alpha beta st m s hTT hdl hlk
  cases depth with
  | zero =>
    simp only [alphabeta_nega]
    exact abBody_exact_hit p _ 0 color alpha beta st m s hTT hdl hlk
  | succ d =>
    simp only [alphabeta_nega]
    exact abBody_exact_hit p _ (d + 1) color alpha beta st m s hTT hdl hlk

/-- Witness for the amended C3: deadline threshold 5 not yet reached, the
ExactHit table of the C3 scenario. -/
theorem claim_C3_exact_hit_witness :
    (⟨true, fun _ _ => (0 : Int), some 5⟩ : ABParams).useTt = true ∧
    deadlineExceeded (some 5) 1 = false ∧
    TranspositionTable.lookup 1 board2.tostring ttC3 = (2, some (1, 1), some 7) ∧
    alphabeta_nega ⟨true, fun _ _ => 0, some 5⟩ 1 .blue (-INF) INF ⟨board2, ttC3, 0⟩ =
      (⟨board2, ttC3, 1⟩, .ok (some 7, some (1, 1))) := by
  refine ⟨rfl, by decide, by decide, ?_⟩
  have := claim_C3_exact_hit ⟨true, fun _ _ => 0, some 5⟩ 1 .blue (-INF) INF
    ⟨board2, ttC3, 0⟩ (1, 1) 7 rfl (by decide) (by decide)
  simpa using this

/-! ### Board restoration and table consistency of the search (claim C5) -/

/-- A move taken from the current empty cells, placed and then taken back,
restores the very board (also when `place` failed as a no-op: the cell was
already empty, so `take` rewrites it to its old value). -/
theorem take_child_board (st : ABState) (m : Coord) (color : Color)
    (hm : m ∈ st.board.get_empty_cells) :
    ((st.board.place m color).2).take m = st.board := by
  obtain ⟨hx, hy, he⟩ := mem_get_empty_cells st.board m hm
  exact take_place_eq st.board m color hx hy he

/-- The empty-cell list depends only on the grid contents. -/
theorem get_empty_cells_board_eq (b1 b2 : HexBoard) (h : b1.board = b2.board) :
    b1.get_empty_cells = b2.get_empty_cells := by
  simp [HexBoard.get_empty_cells, h]

/-- The induction interface for the recursive search call: starting from a
consistent table, the call keeps the table consistent, and whenever it returns
normally or with the sentinel (no exception), it restores the board. -/
def ChildOk (child : Color → Int → Int → ABState →
    ABState × Except Unit (Option Int × Option Coord)) : Prop :=
  ∀ c a b s, ttConsistent s.tt →
    ttConsistent (child c a b s).1.tt ∧
    ∀ v, (child c a b s).2 = .ok v → (child c a b s).1.board = s.board

/-- The move loop preserves the board on every non-exception exit (normal
completion, pruning break and sentinel abort), keeps the table consistent, and
only ever selects best moves from the supplied move list. -/
theorem abLoop_master (child : Color → Int → Int → ABState →
      ABState × Except Unit (Option Int × Option Coord))
    (hchild : ChildOk child) (color : Color) (beta : Int) :
    ∀ (moves : List Coord) (st : ABState) (alpha bv : Int) (bm : Option Coord),
      ttConsistent st.tt →
      (∀ m ∈ moves, m ∈ st.board.get_empty_cells) →
      ttConsistent (abLoop child color beta moves st alpha bv bm).1.tt ∧
      ∀ bv' bm',
        ((abLoop child color beta moves st alpha bv bm).2 = .done bv' bm' ∨
         (abLoop child color beta moves st alpha bv bm).2 = .aborted bv' bm') →
        (abLoop child color beta moves st alpha bv bm).1.board = st.board ∧
        (bm' = bm ∨ ∃ m ∈ moves, bm' = some m) := by
  intro moves
  induction moves with
  | nil =>
    intro st alpha bv bm hcons _
    refine ⟨hcons, ?_⟩
    intro bv' bm' hres
    simp only [abLoop] at hres ⊢
    rcases hres with h | h
    · injection h with h1 h2
      exact ⟨trivial, Or.inl h2.symm⟩
    · cases h
  | cons m rest ih =>
    intro st alpha bv bm hcons hmoves
    have hm0 : m ∈ st.board.get_empty_cells := hmoves m (List.mem_cons_self _ _)
    obtain ⟨hccons, hcpres⟩ := hchild color.opp (-beta) (-alpha)
      { st with board := (st.board.place m color).2 } hcons
    rcases hE : child color.opp (-beta) (-alpha)
      { st with board := (st.board.place m color).2 } with ⟨cst, cr⟩
    rw [hE] at hccons hcpres
    cases cr with
    | error e =>
      have hres : abLoop child color beta (m :: rest) st alpha bv bm = (cst, .err) := by
        simp only [abLoop, hE]
      rw [hres]
      refine ⟨hccons, ?_⟩
      intro bv' bm' habs
      rcases habs with h | h <;> cases h
    | ok val =>
      obtain ⟨vOpt, mOpt⟩ := val
      have hboard : cst.board = (st.board.place m color).2 :=
        hcpres (vOpt, mOpt) rfl
      have htake : cst.board.take m = st.board := by
        rw [hboard]
        exact take_child_board st m color hm0
      cases vOpt with
      | none =>
        have hres : abLoop child color beta (m :: rest) st alpha bv bm =
            ({ cst with board := cst.board.take m }, .aborted bv bm) := by
          simp only [abLoop, hE]
        rw [hres]
        refine ⟨hccons, ?_⟩
        intro bv' bm' habs
        rcases habs with h | h
        · cases h
        · injection h with h1 h2
          exact ⟨htake, Or.inl h2.symm⟩
      | some v =>
        by_cases hcut : max alpha (if -v > bv then -v else bv) ≥ beta
        · have hres : abLoop child color beta (m :: rest) st alpha bv bm =
              ({ cst with board := cst.board.take m },
                .done (if -v > bv then -v else bv)
                  (if -v > bv then some m else bm)) := by
            simp only [abLoop, hE]
            rw [if_pos hcut]
          rw [hres]
          refine ⟨hccons, ?_⟩
          intro bv' bm' habs
          rcases habs with h | h
          · injection h with h1 h2
            refine ⟨htake, ?_⟩
            by_cases hup : -v > bv
            · rw [if_pos hup] at h2
              exact Or.inr ⟨m, List.mem_cons_self _ _, h2.symm⟩
            · rw [if_neg hup] at h2
              exact Or.inl h2.symm
          · cases h
        · have hres : abLoop child color beta (m :: rest) st alpha bv bm =
              abLoop child color beta rest
                { cst with board := cst.board.take m }
                (max alpha (if -v > bv then -v else bv))
                (if -v > bv then -v else bv)
                (if -v > bv then some m else bm) := by
            simp only [abLoop, hE]
            rw [if_neg hcut]
          rw [hres]
          have hrest : ∀ m' ∈ rest,
              m' ∈ (HexBoard.get_empty_cells
                ({ cst with board := cst.board.take m } : ABState).board) := by
            intro m' hm'
            have : ({ cst with board := cst.board.take m } : ABState).board = st.board := htake
            rw [this]
            exact hmoves m' (List.mem_cons_of_mem _ hm')
          obtain ⟨ihc, ihp⟩ := ih { cst with board := cst.board.take m }
            (max alpha (if -v > bv then -v else bv))
            (if -v > bv then -v else bv)
            (if -v > bv then some m else bm) hccons hrest
          refine ⟨ihc, ?_⟩
          intro bv' bm' habs
          obtain ⟨hb, hsel⟩ := ihp bv' bm' habs
          refine ⟨by rw [hb]; exact htake, ?_⟩
          rcases hsel with hle | ⟨m', hm', he'⟩
          · by_cases hup : -v > bv
            · rw [if_pos hup] at hle
              exact Or.inr ⟨m, List.mem_cons_self _ _, hle⟩
            · rw [if_neg hup] at hle
              exact Or.inl hle
          · exact Or.inr ⟨m', List.mem_cons_of_mem _ hm', he'⟩

/-- Every candidate move of the non-terminal branch — the possible hint
included — is a current empty cell, given a consistent table. -/
theorem hint_moves_sub (bd : HexBoard) (tt : TranspositionTable) (depth : Nat)
    (useTt : Bool) (hcons : ttConsistent tt) :
    ∀ m ∈ orderedMoves
        (if useTt then
          (if useTt then TranspositionTable.lookup depth bd.tostring tt
            else (0, none, none)).2.1
          else none) bd,
      m ∈ bd.get_empty_cells := by
  intro m hm
  by_cases hTT : useTt = true
  · simp only [hTT, if_true] at hm
    cases hh : (TranspositionTable.lookup depth bd.tostring tt).2.1 with
    | none =>
      rw [hh] at hm
      simpa [orderedMoves] using hm
    | some hmv =>
      rw [hh] at hm
      simp only [orderedMoves] at hm
      rcases List.mem_cons.mp hm with he | ht
      · subst he
        have hlk : TranspositionTable.lookup depth bd.tostring tt =
            ((TranspositionTable.lookup depth bd.tostring tt).1, some m,
              (TranspositionTable.lookup depth bd.tostring tt).2.2) := by
          rw [← hh]
        obtain ⟨inner, d', s', hmem, hentry⟩ :=
          lookup_hint_mem depth bd.tostring tt _ m _ hlk
        exact hcons bd.tostring inner hmem d' m s' hentry bd rfl
      · exact ht
  · have : useTt = false := by simpa using hTT
    rw [this] at hm
    simpa [orderedMoves] using hm

/-- One search activation preserves the table consistency, and restores the
board on every non-exception exit path: entry-deadline abort, cache hit,
terminal evaluation, normal loop completion, pruning break and propagated
abort — provided the recursive call does. -/
theorem abBody_master (p : ABParams)
    (child : Color → Int → Int → ABState →
      ABState × Except Unit (Option Int × Option Coord))
    (hchild : ChildOk child) (depth : Nat) :
    ChildOk (fun c a b s => abBody p child depth c a b s) := by
  intro color alpha beta st hcons
  have hb1 := abTick_board p.deadline st
  have ht1 := abTick_tt p.deadline st
  have hcons1 : ttConsistent (abTick p.deadline st).tt := by
    rw [ht1]; exact hcons
  simp only [abBody]
  by_cases hdl : deadlineExceeded p.deadline (abTick p.deadline st).clock = true
  · rw [if_pos hdl]
    exact ⟨hcons1, fun v _ => hb1⟩
  · rw [if_neg hdl]
    by_cases hhit : p.useTt = true ∧
        (if p.useTt then
          TranspositionTable.lookup depth (abTick p.deadline st).board.tostring
            (abTick p.deadline st).tt
          else (0, none, none)).1 = 2
    · rw [if_pos hhit]
      exact ⟨hcons1, fun v _ => hb1⟩
    · rw [if_neg hhit]
      by_cases hterm : depth = 0 ∨
          (abTick p.deadline st).board.check_win color.opp = true
      · rw [if_pos hterm]
        exact ⟨hcons1, fun v _ => hb1⟩
      · rw [if_neg hterm]
        set mvs := orderedMoves
          (if p.useTt then
            (if p.useTt then
              TranspositionTable.lookup depth
                (abTick p.deadline st).board.tostring (abTick p.deadline st).tt
              else (0, none, none)).2.1
            else none) (abTick p.deadline st).board with hmvs
        have hmoves : ∀ m ∈ mvs, m ∈ (abTick p.deadline st).board.get_empty_cells := by
          rw [hmvs]
          have := hint_moves_sub (abTick p.deadline st).board
            (abTick p.deadline st).tt depth p.useTt hcons1
          exact this
        set L := abLoop child color beta mvs (abTick p.deadline st) alpha (-INF) none
          with hL
        obtain ⟨lc, lp⟩ := abLoop_master child hchild color beta mvs
          (abTick p.deadline st) alpha (-INF) none hcons1 hmoves
        rw [← hL] at lc lp
        cases hres : L.2 with
        | aborted bv bm =>
          dsimp only
          refine ⟨lc, fun v _ => ?_⟩
          have := (lp bv bm (Or.inr hres)).1
          rw [this]
          exact hb1
        | err =>
          dsimp only
          exact ⟨lc, fun v hv => by cases hv⟩
        | done bv bm =>
          dsimp only
          by_cases hTT : p.useTt = true
          · rw [if_pos hTT]
            cases bm with
            | none => exact ⟨lc, fun v hv => by cases hv⟩
            | some mv =>
              have hbl := (lp bv (some mv) (Or.inl hres)).1
              have hsel := (lp bv (some mv) (Or.inl hres)).2
              have hmv : mv ∈ (abTick p.deadline st).board.get_empty_cells := by
                rcases hsel with h0 | ⟨m', hm', he'⟩
                · cases h0
                · injection he' with he'
                  exact he' ▸ hmoves m' hm'
              refine ⟨?_, fun v _ => ?_⟩
              · refine ttConsistent_store _ _ _ _ _ lc ?_
                intro b hb
                have hbb := tostring_inj _ _ hb
                rw [get_empty_cells_board_eq b L.1.board hbb,
                  get_empty_cells_board_eq L.1.board (abTick p.deadline st).board
                    (congrArg HexBoard.board hbl)]
                exact hmv
              · show L.1.board = st.board
                rw [hbl]
                exact hb1
          · rw [if_neg hTT]
            refine ⟨lc, fun v _ => ?_⟩
            have := (lp bv bm (Or.inl hres)).1
            rw [this]
            exact hb1

/-- `alphabeta_nega` at every depth preserves table consistency and restores
the board on every non-exception exit. -/
theorem alphabeta_master (p : ABParams) :
    ∀ depth : Nat, ChildOk (fun c a b s => alphabeta_nega p depth c a b s) := by
  intro depth
  induction depth with
  | zero =>
    have hdummy : ChildOk (fun _ _ _ s =>
        (s, Except.ok ((none : Option Int), (none : Option Coord)))) :=
      fun _ _ _ _ hc => ⟨hc, fun _ _ => rfl⟩
    exact abBody_master p _ hdummy 0
  | succ d ih =>
    exact abBody_master p _ ih (d + 1)

/-- C5: for every board state, color, alpha/beta window, depth, deadline state
and clock, a call to `alphabeta_nega` leaves the board's cell contents
identical to what they were at entry on every exit path that returns a value —
entry-deadline abort, cache hit, terminal evaluation, normal loop completion,
pruning break and propagated abort.  The transposition table is required to be
consistent (`ttConsistent`), which holds for the empty table a game starts
with and is preserved by every search call (`alphabeta_master`), so it holds
of every table reachable in play. -/
theorem claim_C5_board_restored :
    ∀ (p : ABParams) (depth : Nat) (color : Color) (alpha beta : Int)
      (st : ABState) (v : Option Int × Option Coord),
      ttConsistent st.tt →
      (alphabeta_nega p depth color alpha beta st).2 = .ok v →
      (alphabeta_nega p depth color alpha beta st).1.board = st.board := by
  intro p depth color alpha beta st v hcons hok
  exact (alphabeta_master p depth color alpha beta st hcons).2 v hok

/-- C5 search configuration for the witness: table on, constant evaluator,
no deadline. -/
def pC5 : ABParams := ⟨true, fun _ _ => 0, none⟩

/-- C5 witness state: empty 2×2 board, empty table. -/
def stC5 : ABState := ⟨board2, [], 0⟩

/-- Witness for C5: a concrete depth-1 search with the table on returns
normally and leaves the board exactly as it was. -/
theorem claim_C5_board_restored_witness :
    ttConsistent stC5.tt ∧
    (alphabeta_nega pC5 1 .blue (-INF) INF stC5).2 = .ok (some 0, some (0, 0)) ∧
    (alphabeta_nega pC5 1 .blue (-INF) INF stC5).1.board = stC5.board :=
  ⟨ttConsistent_nil, by decide,
   claim_C5_board_restored pC5 1 .blue (-INF) INF stC5 (some 0, some (0, 0))
     ttConsistent_nil (by decide)⟩

/-! ### Iterative deepening driver (`timed_turn_loop`, `do_turn`) — claim C2 -/

/-- The end of one `timed_turn_loop` iteration: the test
`if best_score >= LOSE or best_score <= -LOSE: break`.  Reading `best_score`
while it is still unbound (no depth ever completed and none was kept) is
Python's `UnboundLocalError`, modelled as `.inl (st, .error ())`; `.inl` exits
the loop with the returned `(best_score, best_move)`; `.inr` continues with
the next depth. -/
def loseCheck (st : ABState) (bs : Option Int) (bm : Option Coord) :
    Sum (ABState × Except Unit (Int × Coord)) (ABState × Option Int × Option Coord) :=
  match bs with
  | none => .inl (st, .error ())
  | some s =>
    if s ≥ LOSE ∨ s ≤ -LOSE then
      .inl (st, match bm with | some m => .ok (s, m) | none => .error ())
    else .inr (st, some s, bm)

/-- One iteration of the `for depth in range(1, INF)` loop of
`timed_turn_loop`: run `alphabeta_nega` at this depth; if both result and move
came back, keep them — but when the wall clock (one `time()` tick) is already
past the deadline, keep them only when the result beats the best score so far,
reading the possibly unbound `best_score` (an `UnboundLocalError` when no
depth ever completed); finally run the break test. -/
def ttlStep (p : ABParams) (color : Color) (depth : Nat) (st : ABState)
    (bs : Option Int) (bm : Option Coord) :
    Sum (ABState × Except Unit (Int × Coord)) (ABState × Option Int × Option Coord) :=
  let r := alphabeta_nega p depth color (-INF) INF st
  match r.2 with
  | .error _ => .inl (r.1, .error ())
  | .ok (resOpt, mvOpt) =>
    match resOpt, mvOpt with
    | some result, some move =>
      let st2 : ABState := { r.1 with clock := r.1.clock + 1 }
      if deadlineExceeded p.deadline st2.clock then
        match bs with
        | none => .inl (st2, .error ())
        | some b =>
          if result > b then loseCheck st2 (some result) (some move)
          else loseCheck st2 bs bm
      else loseCheck st2 (some result) (some move)
    | _, _ => loseCheck r.1 bs bm

/-- The depth loop of `timed_turn_loop`: depths 1, 2, … up to 9998
(`range(1, INF)`); when the range is exhausted the function returns
`best_score, best_move` (unbound reads are errors). -/
def ttlGo (p : ABParams) (color : Color) :
    Nat → Nat → ABState → Option Int → Option Coord →
    ABState × Except Unit (Int × Coord)
  | 0, _, st, bs, bm =>
    (st, match bs, bm with
      | some s, some m => .ok (s, m)
      | _, _ => .error ())
  | fuel + 1, depth, st, bs, bm =>
    match ttlStep p color depth st bs bm with
    | .inl out => out
    | .inr (st', bs', bm') => ttlGo p color fuel (depth + 1) st' bs' bm'

/-- `AlphaBetaPlayer.timed_turn_loop`: set `turn_timer = time()` (one tick),
activate the deadline `turn_timer + max_time`, and run the depth loop with
`best_score` and `best_move` unbound. -/
def timed_turn_loop (useTt : Bool) (evalFn : Color → HexBoard → Int)
    (maxTime : Nat) (color : Color) (st : ABState) :
    ABState × Except Unit (Int × Coord) :=
  let t0 := st.clock + 1
  ttlGo ⟨useTt, evalFn, some (t0 + maxTime)⟩ color 9998 1
    { st with clock := t0 } none none

/-- `AlphaBetaPlayer.do_turn`: run the search (iterative deepening or fixed
depth) and apply the selected move to the live board; a propagating exception
(`UnboundLocalError`, `AssertionError`, or `board.place(None, ...)`) means no
move is applied. -/
def do_turn (useId useTt : Bool) (evalFn : Color → HexBoard → Int)
    (maxDepth maxTime : Nat) (color : Color) (st : ABState) :
    Except Unit ABState :=
  if useId then
    match timed_turn_loop useTt evalFn maxTime color st with
    | (_, .error _) => .error ()
    | (st', .ok (_, m)) => .ok { st' with board := (st'.board.place m color).2 }
  else
    match alphabeta_nega ⟨useTt, evalFn, none⟩ maxDepth color (-INF) INF st with
    | (_, .error _) => .error ()
    | (st', .ok (_, mOpt)) =>
      match mOpt with
      | some m => .ok { st' with board := (st'.board.place m color).2 }
      | none => .error ()

/-- C2: with iterative deepening, when the wall-clock deadline expires before
the depth-1 search completes (here `max_time = 0` on the empty 2×2 board), the
depth-1 call returns the abort sentinel, `timed_turn_loop` skips the result,
and the break test `best_score >= LOSE` reads the never-assigned local
`best_score` — an `UnboundLocalError`: `do_turn` raises instead of applying a
legal fallback move, contradicting the claim. -/
theorem claim_C2_deadline_crash :
    do_turn true false (fun _ _ => 0) 3 0 .blue ⟨board2, [], 0⟩ =
      .error () := by decide

/-! ### Player construction (`BasePlayer.__init__`, `AlphaBetaPlayer.__init__`)
— claim C10 -/

/-- The `BasePlayer` attributes relevant to construction: rating/counter
telemetry omitted.  `localRandomSeed` records the argument of
`Random(seed)`. -/
structure BasePlayer where
  name : String
  color : Option Color
  board : Option HexBoard
  localRandomSeed : Option Nat
deriving DecidableEq, Repr

/-- `BasePlayer.__init__(self, name, seed=None, color=None)`. -/
def BasePlayer.init (name : String) (seed : Option Nat) (color : Option Color) :
    BasePlayer :=
  { name := name, color := color, board := none, localRandomSeed := seed }

/-- `BasePlayer.set_board_and_color`. -/
def BasePlayer.set_board_and_color (p : BasePlayer) (b : HexBoard) (c : Color) :
    BasePlayer :=
  { p with board := some b, color := some c }

/-- Instances spelled out: the automatic search stops short on this nesting. -/
instance : DecidableEq (Nat × Coord × Int) := instDecidableEqProd

instance : DecidableEq (List (Nat × Coord × Int)) := instDecidableEqList

instance : DecidableEq (List Char × List (Nat × Coord × Int)) := instDecidableEqProd

instance : DecidableEq TranspositionTable := instDecidableEqList

instance : DecidableEq (Option TranspositionTable) := Option.instDecidableEq

/-- The `AlphaBetaPlayer` attributes set by its constructor. -/
structure AlphaBetaPlayerState where
  base : BasePlayer
  max_depth : Nat
  use_id : Bool
  use_tt : Bool
  max_time : Nat
  tt : Option TranspositionTable
deriving DecidableEq, Repr

/-- `AlphaBetaPlayer.__init__(self, evaluation, use_id, use_tt, max_depth=3,
max_time=0.5, color=None, name="AlphaBeta")`: it calls
`super().__init__(name, color)` — `color` lands POSITIONALLY in the base
class's `seed` parameter, and the base `color` keeps its default `None`.  An
unknown evaluation string raises `ValueError` (`.error ()`). -/
def AlphaBetaPlayer.init (evaluation : String) (use_id use_tt : Bool)
    (max_depth max_time : Nat) (color : Option Color) (name : String) :
    Except Unit AlphaBetaPlayerState :=
  if evaluation = "random" ∨ evaluation = "dijkstra" then
    .ok { base := BasePlayer.init name (color.map Color.val) none,
          max_depth := max_depth, use_id := use_id, use_tt := use_tt,
          max_time := max_time,
          tt := if use_tt then some [] else none }
  else .error ()

/-- C10: constructing an `AlphaBetaPlayer` with a color argument does not set
the player's color — the value is forwarded positionally into the base
class's `seed` parameter, so after construction the color is `None` and the
given color's integer value seeds the player's random source, until
`set_board_and_color` assigns a real color. -/
theorem claim_C10_constructor_color :
    ∀ (evaluation : String) (use_id use_tt : Bool) (max_depth max_time : Nat)
      (c : Color) (name : String) (pl : AlphaBetaPlayerState),
      AlphaBetaPlayer.init evaluation use_id use_tt max_depth max_time
        (some c) name = .ok pl →
      pl.base.color = none ∧ pl.base.localRandomSeed = some c.val ∧
      ∀ (b : HexBoard) (c' : Color),
        (pl.base.set_board_and_color b c').color = some c' := by
  intro evaluation use_id use_tt max_depth max_time c name pl h
  unfold AlphaBetaPlayer.init at h
  by_cases he : evaluation = "random" ∨ evaluation = "dijkstra"
  · rw [if_pos he] at h
    injection h with h
    subst h
    exact ⟨rfl, rfl, fun _ _ => rfl⟩
  · rw [if_neg he] at h
    cases h

/-- The concrete player of the C10 witness. -/
def plC10 : AlphaBetaPlayerState :=
  ⟨⟨"AlphaBeta", none, none, some 1⟩, 3, true, true, 1, some []⟩

/-- Witness for C10: constructing with `color = BLUE` leaves the color unset
and seeds the random source with the color value 1. -/
theorem claim_C10_constructor_color_witness :
    plC10.base.color = none ∧ plC10.base.localRandomSeed = some Color.blue.val ∧
      (plC10.base.set_board_and_color board2 .red).color = some .red := by
  have h := claim_C10_constructor_color "dijkstra" true true 3 1 .blue
    "AlphaBeta" plC10 (by decide)
  exact ⟨h.1, h.2.1, h.2.2 board2 .red⟩

/-! ### Monte-Carlo tree search: `best_child` and final move selection
(claim C9) -/

/-- `MctsNode`: one search-tree node.  The non-owning `parent` back-reference
is not represented (children own their subtrees; backpropagation is outside
this claim); all other attributes follow `__init__`. -/
inductive MctsNode where
  | mk (state : HexBoard) (move : Option Coord) (color_to_move : Color)
      (mcts_color : Color) (no_visits no_wins : Nat)
      (untried_moves : List Coord) (children : List MctsNode)

/-- The board of a node. -/
def MctsNode.state : MctsNode → HexBoard
  | .mk s _ _ _ _ _ _ _ => s

/-- The move that led to a node (`None` at the root). -/
def MctsNode.move : MctsNode → Option Coord
  | .mk _ m _ _ _ _ _ _ => m

/-- Visit count. -/
def MctsNode.no_visits : MctsNode → Nat
  | .mk _ _ _ _ v _ _ _ => v

/-- Win count. -/
def MctsNode.no_wins : MctsNode → Nat
  | .mk _ _ _ _ _ w _ _ => w

/-- Child list. -/
def MctsNode.children : MctsNode → List MctsNode
  | .mk _ _ _ _ _ _ _ c => c

/-- The UCT weight at exploration factor 0:
`child.no_wins / child.no_visits + 0 * sqrt(ln(n)/n_j)`.  In every reachable
`best_child(0)` call the parent has at least one visit (children exist only
after an expansion was backpropagated), so the float exploration term is
exactly `0.0` and drops; the machine-float division of two visit-bounded ints
is modelled exactly in ℚ. -/
def MctsNode.weightZero (n : MctsNode) : ℚ :=
  (n.no_wins : ℚ) / (n.no_visits : ℚ)

/-- The scan inside `np.argmax`: first index of the maximum (ties keep the
earlier index — the update fires only on strictly greater weights). -/
def argmaxGo : List ℚ → Nat → Nat → ℚ → Nat
  | [], _, bi, _ => bi
  | w :: ws, i, bi, bw =>
    if w > bw then argmaxGo ws (i + 1) i w else argmaxGo ws (i + 1) bi bw

/-- `np.argmax` (raises on an empty list; 0 is unreachable junk there). -/
def np_argmax : List ℚ → Nat
  | [] => 0
  | w :: ws => argmaxGo ws 1 0 w

/-- The index `best_child(0)` selects. -/
def MctsNode.best_child_index (n : MctsNode) : Nat :=
  np_argmax (n.children.map MctsNode.weightZero)

/-- `MctsNode.best_child(exploration_factor=0)`:
`self.children[np.argmax(weights)]` (the default is unreachable: the argmax
index is below the children count). -/
def MctsNode.best_child_zero (n : MctsNode) : MctsNode :=
  n.children.getD (np_argmax (n.children.map MctsNode.weightZero)) n

/-- The move the MCTS player finally plays: `mcts()` returns
`self.root.best_child(exploration_factor=0)` after the iteration budget, and
`do_turn` places `best_child.move` on the live board. -/
def MctsPlayer.selected_move (root : MctsNode) : Option Coord :=
  root.best_child_zero.move

/-- `MctsPlayer.do_turn`: place the selected move on the live board
(placing `None` would raise in Python). -/
def MctsPlayer.do_turn (root : MctsNode) (board : HexBoard) (color : Color) :
    Except Unit HexBoard :=
  match MctsPlayer.selected_move root with
  | some m => .ok (board.place m color).2
  | none => .error ()

/-- Invariant-carrying specification of the argmax scan: with a scanned
prefix whose running best is `bw` at first-maximum index `bi`, the scan of the
rest returns the first maximum of the whole list. -/
theorem argmaxGo_spec :
    ∀ (ws pre : List ℚ) (bi : Nat) (bw : ℚ),
      bi < pre.length → pre.getD bi 0 = bw →
      (∀ k, k < pre.length → pre.getD k 0 ≤ bw) →
      (∀ k, k < bi → pre.getD k 0 < bw) →
      argmaxGo ws pre.length bi bw < (pre ++ ws).length ∧
      (∀ k, k < (pre ++ ws).length →
        (pre ++ ws).getD k 0 ≤ (pre ++ ws).getD (argmaxGo ws pre.length bi bw) 0) ∧
      (∀ k, k < argmaxGo ws pre.length bi bw →
        (pre ++ ws).getD k 0 < (pre ++ ws).getD (argmaxGo ws pre.length bi bw) 0) := by
  intro ws
  induction ws with
  | nil =>
    intro pre bi bw hbi hval hle hlt
    simp only [argmaxGo, List.append_nil]
    exact ⟨hbi, fun k hk => hval ▸ hle k hk, fun k hk => hval ▸ hlt k hk⟩
  | cons w ws ih =>
    intro pre bi bw hbi hval hle hlt
    have hpre1 : (pre ++ [w]).length = pre.length + 1 := by simp
    have hgetw : (pre ++ [w]).getD pre.length 0 = w := by
      rw [List.getD_append_right pre [w] 0 pre.length (Nat.le_refl _)]
      simp [List.getD]
    have hgetold : ∀ k, k < pre.length → (pre ++ [w]).getD k 0 = pre.getD k 0 :=
      fun k hk => List.getD_append pre [w] 0 k hk
    have hassoc : pre ++ w :: ws = (pre ++ [w]) ++ ws := by simp
    by_cases hgt : w > bw
    · have := ih (pre ++ [w]) pre.length w
        (by omega) hgetw
        (by
          intro k hk
          rw [hpre1] at hk
          rcases Nat.lt_succ_iff_lt_or_eq.mp hk with h | h
          · rw [hgetold k h]
            exact le_of_lt (lt_of_le_of_lt (hle k h) hgt)
          · subst h
            rw [hgetw])
        (by
          intro k hk
          rw [hgetold k hk]
          exact lt_of_le_of_lt (hle k hk) hgt)
      rw [hpre1] at this
      simp only [argmaxGo, if_pos hgt]
      rw [hassoc]
      exact this
    · have := ih (pre ++ [w]) bi bw
        (by omega) (by rw [hgetold bi hbi]; exact hval)
        (by
          intro k hk
          rw [hpre1] at hk
          rcases Nat.lt_succ_iff_lt_or_eq.mp hk with h | h
          · rw [hgetold k h]
            exact hle k h
          · subst h
            rw [hgetw]
            exact le_of_not_lt hgt)
        (by
          intro k hk
          rw [hgetold k (Nat.lt_trans hk hbi)]
          exact hlt k hk)
      rw [hpre1] at this
      simp only [argmaxGo, if_neg hgt]
      rw [hassoc]
      exact this

/-- `np.argmax` of a nonempty list returns the index of the first maximum. -/
theorem np_argmax_spec (w : ℚ) (ws : List ℚ) :
    np_argmax (w :: ws) < (w :: ws).length ∧
    (∀ k, k < (w :: ws).length →
      (w :: ws).getD k 0 ≤ (w :: ws).getD (np_argmax (w :: ws)) 0) ∧
    (∀ k, k < np_argmax (w :: ws) →
      (w :: ws).getD k 0 < (w :: ws).getD (np_argmax (w :: ws)) 0) := by
  have h := argmaxGo_spec ws [w] 0 w (by simp) (by simp [List.getD])
    (by
      intro k hk
      rw [List.length_singleton, Nat.lt_one_iff] at hk
      subst hk
      simp [List.getD])
    (by intro k hk; omega)
  simpa [np_argmax, List.singleton_append] using h

/-- Reading a mapped weight list at an in-range index. -/
theorem getD_map_weight :
    ∀ (l : List MctsNode) (k : Nat) (d : MctsNode), k < l.length →
      (l.map MctsNode.weightZero).getD k 0 = (l.getD k d).weightZero := by
  intro l
  induction l with
  | nil => intro k d h; simp at h
  | cons x xs ih =>
    intro k d h
    cases k with
    | zero => rfl
    | succ j =>
      simp only [List.map, List.getD]
      simpa [List.getD] using ih j d (by simpa using h)

/-- C9: for every MCTS node with children all visited at least once,
`best_child` with exploration factor 0 returns the child with the highest
wins/visits ratio, ties resolved by the first maximum in child order, and the
move the MCTS player finally plays is the move of exactly that child of the
root. -/
theorem claim_C9_best_child :
    ∀ (n : MctsNode), n.children ≠ [] → (∀ c ∈ n.children, 1 ≤ c.no_visits) →
      n.best_child_index < n.children.length ∧
      n.best_child_zero = n.children.getD n.best_child_index n ∧
      (∀ k, k < n.children.length →
        (n.children.getD k n).weightZero ≤
          (n.children.getD n.best_child_index n).weightZero) ∧
      (∀ k, k < n.best_child_index →
        (n.children.getD k n).weightZero <
          (n.children.getD n.best_child_index n).weightZero) ∧
      MctsPlayer.selected_move n = (n.children.getD n.best_child_index n).move := by
  intro n hne _
  obtain ⟨w, ws, hws⟩ : ∃ w ws, n.children.map MctsNode.weightZero = w :: ws := by
    cases hcc : n.children with
    | nil => exact absurd hcc hne
    | cons c cs => exact ⟨_, _, rfl⟩
  have hlen : (w :: ws).length = n.children.length := by
    rw [← hws, List.length_map]
  obtain ⟨h1, h2, h3⟩ := np_argmax_spec w ws
  have hidx : n.best_child_index = np_argmax (w :: ws) := by
    rw [MctsNode.best_child_index, hws]
  have hmap : ∀ k, k < n.children.length →
      (w :: ws).getD k 0 = (n.children.getD k n).weightZero := by
    intro k hk
    rw [← hws]
    exact getD_map_weight n.children k n hk
  have hi : n.best_child_index < n.children.length := by
    rw [hidx, ← hlen]
    exact h1
  refine ⟨hi, ?_, ?_, ?_, ?_⟩
  · rw [MctsNode.best_child_zero, hws, ← hidx]
  · intro k hk
    rw [← hmap k hk, ← hmap _ hi, hidx]
    exact h2 k (by rw [hlen]; exact hk)
  · intro k hk
    rw [← hmap k (Nat.lt_trans hk hi), ← hmap _ hi, hidx]
    exact h3 k (by rw [← hidx]; exact hk)
  · rw [MctsPlayer.selected_move, MctsNode.best_child_zero, hws, ← hidx]

/-- A rolled-out child reached by move `(0,0)`: 1 win in 2 visits. -/
def mctsLeafA : MctsNode := .mk board2 (some (0, 0)) .red .blue 2 1 [] []

/-- A rolled-out child reached by move `(1,1)`: 1 win in 1 visit. -/
def mctsLeafB : MctsNode := .mk board2 (some (1, 1)) .red .blue 1 1 [] []

/-- A root with the two children above. -/
def mctsRoot : MctsNode := .mk board2 none .blue .blue 3 2 [] [mctsLeafA, mctsLeafB]

/-- Witness for C9: on the concrete root, the selected child is the one at the
argmax index and the played move is its move (the second child, win rate 1
versus 1/2). -/
theorem claim_C9_best_child_witness :
    mctsRoot.best_child_index < mctsRoot.children.length ∧
    mctsRoot.best_child_zero =
      mctsRoot.children.getD mctsRoot.best_child_index mctsRoot ∧
    MctsPlayer.selected_move mctsRoot =
      (mctsRoot.children.getD mctsRoot.best_child_index mctsRoot).move ∧
    mctsRoot.best_child_index = 1 := by
  have h := claim_C9_best_child mctsRoot (fun hces => List.noConfusion hces)
    (by
      intro c hc
      rcases List.mem_cons.mp hc with h0 | h0
      · subst h0; decide
      · rcases List.mem_cons.mp h0 with h1 | h1
        · subst h1; decide
        · cases h1)
  exact ⟨h.1, h.2.1, h.2.2.2.2, by
    norm_num [mctsRoot, mctsLeafA, mctsLeafB, MctsNode.best_child_index,
      MctsNode.children, MctsNode.weightZero, MctsNode.no_wins,
      MctsNode.no_visits, np_argmax, argmaxGo]⟩

/-! ### The distance evaluator's flood relaxation (`dijkstra_update`) —
claim C8 -/

/-- `LOSE = 1000` as the non-negative cost/seed value of the evaluator.  All
scores this evaluator manipulates are non-negative (seeds 0/1/LOSE, costs
0/1/LOSE, updates assign sums of those), so `Nat` models the Python ints
exactly on every reachable value. -/
def loseCost : Nat := 1000

/-- Reading `scores[x][y]` (out-of-structure reads default to 0, which can
never win a `>` comparison, exactly like an always-losing candidate). -/
def getS (s : List (List Nat)) (c : Coord) : Nat :=
  (s.getD c.1 []).getD c.2 0

/-- Writing `scores[x][y] = v`. -/
def setS (s : List (List Nat)) (c : Coord) (v : Nat) : List (List Nat) :=
  s.set c.1 ((s.getD c.1 []).set c.2 v)

/-- Reading `updated[x][y]`. -/
def getU (u : List (List Bool)) (c : Coord) : Bool :=
  (u.getD c.1 []).getD c.2 true

/-- Writing `updated[x][y] = v`. -/
def setU (u : List (List Bool)) (c : Coord) (v : Bool) : List (List Bool) :=
  u.set c.1 ((u.getD c.1 []).set c.2 v)

/-- `path_cost`: LOSE by default, 1 into an empty cell, 0 into an own-colored
cell. -/
def pathCost (b : HexBoard) (color : Color) (t : Coord) : Nat :=
  if b.is_empty t then 1 else if b.is_color t color then 0 else loseCost

/-- The relaxation state threaded through one pass: scores, updated flags and
the `updating` flag. -/
abbrev DijState := List (List Nat) × List (List Bool) × Bool

/-- The `for neighborcoord in neighborcoords` loop: relax each neighbor of
cell `(i, j)`, re-reading the live scores. -/
def dijUpdateNbs (b : HexBoard) (color : Color) (i j : Nat) :
    List Coord → DijState → DijState
  | [], acc => acc
  | t :: ts, (s, u, upd) =>
    let cost := pathCost b color t
    if getS s t > getS s (i, j) + cost then
      dijUpdateNbs b color i j ts
        (setS s t (getS s (i, j) + cost), setU u t false, true)
    else dijUpdateNbs b color i j ts (s, u, upd)

/-- One cell of the pass: relax its neighbors when `not updated[i][j]`. -/
def dijUpdateCell (b : HexBoard) (color : Color) (ij : Coord)
    (acc : DijState) : DijState :=
  if getU acc.2.1 ij = false then
    dijUpdateNbs b color ij.1 ij.2 (b.get_neighbors ij) acc
  else acc

/-- The row-major cell indices of the scores array (its shape is fixed while
values mutate, like numpy's `enumerate`). -/
def cellIndicesGo : Nat → List (List Nat) → List Coord
  | _, [] => []
  | i, r :: rs =>
    (List.range r.length).map (fun j => (i, j)) ++ cellIndicesGo (i + 1) rs

/-- All cell indices of the scores array. -/
def cellIndices (s : List (List Nat)) : List Coord :=
  cellIndicesGo 0 s

/-- One full pass of the `while updating` loop body: `updating = False`, then
the nested `for` loops over every cell. -/
def dijkstraPass (b : HexBoard) (color : Color) (s : List (List Nat))
    (u : List (List Bool)) : DijState :=
  (cellIndices s).foldl (fun acc ij => dijUpdateCell b color ij acc)
    (s, u, false)

/-- Sum of all scores: the termination measure of the relaxation. -/
def sumScores : List (List Nat) → Nat
  | [] => 0
  | r :: rs => r.sum + sumScores rs

/-- Setting a strictly smaller value at an index strictly shrinks a row sum. -/
theorem sum_set_row :
    ∀ (r : List Nat) (j v : Nat), v < r.getD j 0 → (r.set j v).sum < r.sum := by
  intro r
  induction r with
  | nil => intro j v h; simp [List.getD] at h
  | cons a rs ih =>
    intro j v h
    cases j with
    | zero =>
      rw [List.getD_cons_zero] at h
      simp only [List.set, List.sum_cons]
      omega
    | succ j =>
      have := ih j v (by simpa [List.getD] using h)
      simp only [List.set, List.sum_cons]
      omega

/-- Setting a strictly smaller value strictly shrinks the total score sum. -/
theorem sumScores_set :
    ∀ (s : List (List Nat)) (t : Coord) (v : Nat), v < getS s t →
      sumScores (setS s t v) < sumScores s := by
  intro s
  induction s with
  | nil => intro t v h; simp [getS, List.getD] at h
  | cons r rs ih =>
    intro t v h
    obtain ⟨x, y⟩ := t
    cases x with
    | zero =>
      have hrow : v < r.getD y 0 := by simpa [getS, List.getD] using h
      simp only [setS, List.getD_cons_zero, List.set, sumScores]
      have := sum_set_row r y v hrow
      omega
    | succ x =>
      have htail : v < getS rs (x, y) := by simpa [getS, List.getD] using h
      have := ih (x, y) v htail
      simp only [setS, List.getD_cons_succ, List.set, sumScores] at this ⊢
      omega

/-- The per-step contract of the pass: the score sum never grows, and the
`updating` flag can only be raised by a strict decrease. -/
def DecP (a c : DijState) : Prop :=
  sumScores c.1 ≤ sumScores a.1 ∧
    (c.2.2 = true → a.2.2 = true ∨ sumScores c.1 < sumScores a.1)

/-- `DecP` is reflexive. -/
theorem DecP_refl (a : DijState) : DecP a a :=
  ⟨Nat.le_refl _, fun h => Or.inl h⟩

/-- `DecP` composes. -/
theorem DecP_trans {a b c : DijState} (h1 : DecP a b) (h2 : DecP b c) :
    DecP a c := by
  refine ⟨Nat.le_trans h2.1 h1.1, ?_⟩
  intro hc
  rcases h2.2 hc with hb | hlt
  · rcases h1.2 hb with ha | hlt1
    · exact Or.inl ha
    · exact Or.inr (Nat.lt_of_le_of_lt h2.1 hlt1)
  · exact Or.inr (Nat.lt_of_lt_of_le hlt h1.1)

/-- The neighbor loop obeys the contract. -/
theorem dijUpdateNbs_DecP (b : HexBoard) (color : Color) (i j : Nat) :
    ∀ (ts : List Coord) (acc : DijState),
      DecP acc (dijUpdateNbs b color i j ts acc) := by
  intro ts
  induction ts with
  | nil => intro acc; exact DecP_refl acc
  | cons t ts ih =>
    intro acc
    obtain ⟨s, u, upd⟩ := acc
    simp only [dijUpdateNbs]
    by_cases hgt : getS s t > getS s (i, j) + pathCost b color t
    · rw [if_pos hgt]
      refine DecP_trans ?_ (ih _)
      refine ⟨Nat.le_of_lt (sumScores_set s t _ hgt), fun _ => ?_⟩
      exact Or.inr (sumScores_set s t _ hgt)
    · rw [if_neg hgt]
      exact ih _

/-- One cell of the pass obeys the contract. -/
theorem dijUpdateCell_DecP (b : HexBoard) (color : Color) (ij : Coord)
    (acc : DijState) : DecP acc (dijUpdateCell b color ij acc) := by
  unfold dijUpdateCell
  by_cases hu : getU acc.2.1 ij = false
  · rw [if_pos hu]
    exact dijUpdateNbs_DecP b color ij.1 ij.2 _ acc
  · rw [if_neg hu]
    exact DecP_refl acc

/-- The whole cell scan obeys the contract. -/
theorem dijFold_DecP (b : HexBoard) (color : Color) :
    ∀ (idxs : List Coord) (acc : DijState),
      DecP acc (idxs.foldl (fun a ij => dijUpdateCell b color ij a) acc) := by
  intro idxs
  induction idxs with
  | nil => intro acc; exact DecP_refl acc
  | cons ij idxs ih =>
    intro acc
    simp only [List.foldl_cons]
    exact DecP_trans (dijUpdateCell_DecP b color ij acc) (ih _)

/-- A pass that reports an improvement strictly shrank the score sum. -/
theorem dijkstraPass_decrease (b : HexBoard) (color : Color)
    (s : List (List Nat)) (u : List (List Bool))
    (h : (dijkstraPass b color s u).2.2 = true) :
    sumScores (dijkstraPass b color s u).1 < sumScores s := by
  have hd := dijFold_DecP b color (cellIndices s) (s, u, false)
  rcases hd.2 h with hfalse | hlt
  · cases hfalse
  · exact hlt

/-- The `while updating` loop of `dijkstra_update`: repeat the pass until no
improvement occurs anywhere.  Total: every repeated pass strictly shrinks the
score sum. -/
def dijkstraLoop (b : HexBoard) (color : Color) (s : List (List Nat))
    (u : List (List Bool)) : List (List Nat) × List (List Bool) :=
  let r := dijkstraPass b color s u
  if h : r.2.2 = true then dijkstraLoop b color r.1 r.2.1
  else (r.1, r.2.1)
termination_by sumScores s
decreasing_by
  exact dijkstraPass_decrease b color s u h

/-- `AlphaBetaPlayer.dijkstra_update`: the relaxation loop, returning the
settled scores. -/
def dijkstra_update (b : HexBoard) (color : Color) (s : List (List Nat))
    (u : List (List Bool)) : List (List Nat) :=
  (dijkstraLoop b color s u).1

/-- `n` repetitions of the pass (keeping scores and updated flags). -/
def passIter (b : HexBoard) (color : Color) :
    Nat → List (List Nat) × List (List Bool) →
    List (List Nat) × List (List Bool)
  | 0, su => su
  | n + 1, su =>
    let r := dijkstraPass b color su.1 su.2
    passIter b color n (r.1, r.2.1)

/-- Strong-induction engine for C8: from any state, some finite number of
passes reaches a pass with no improvement, and `dijkstra_update` returns that
pass's scores. -/
theorem dij_reaches (b : HexBoard) (color : Color) :
    ∀ (N : Nat) (s : List (List Nat)) (u : List (List Bool)),
      sumScores s ≤ N →
      ∃ n : Nat,
        (dijkstraPass b color (passIter b color n (s, u)).1
          (passIter b color n (s, u)).2).2.2 = false ∧
        dijkstra_update b color s u =
          (dijkstraPass b color (passIter b color n (s, u)).1
            (passIter b color n (s, u)).2).1 := by
  intro N
  induction N using Nat.strong_induction_on with
  | _ N ih =>
    intro s u hle
    by_cases hflag : (dijkstraPass b color s u).2.2 = true
    · have hdec := dijkstraPass_decrease b color s u hflag
      have hN : 0 < N := Nat.lt_of_le_of_lt (Nat.zero_le _)
        (Nat.lt_of_lt_of_le hdec hle)
      obtain ⟨n, hstop, hval⟩ := ih (N - 1) (by omega)
        (dijkstraPass b color s u).1 (dijkstraPass b color s u).2.1
        (by omega)
      refine ⟨n + 1, ?_, ?_⟩
      · simpa [passIter] using hstop
      · rw [dijkstra_update, dijkstraLoop]
        rw [dif_pos hflag]
        have : (dijkstraLoop b color (dijkstraPass b color s u).1
            (dijkstraPass b color s u).2.1).1 =
            dijkstra_update b color (dijkstraPass b color s u).1
              (dijkstraPass b color s u).2.1 := rfl
        rw [this, hval]
        simp [passIter]
    · refine ⟨0, by simpa [passIter] using hflag, ?_⟩
      rw [dijkstra_update, dijkstraLoop]
      rw [dif_neg hflag]
      simp [passIter]

/-- Initial scores: an N×N array of LOSE. -/
def dijInitBase (b : HexBoard) : List (List Nat) :=
  List.replicate b.size (List.replicate b.size loseCost)

/-- Initial updated flags: an N×N array of True. -/
def dijInitUpdatedBase (b : HexBoard) : List (List Bool) :=
  List.replicate b.size (List.replicate b.size true)

/-- Seed value of a start-edge cell: 0 on an own-colored cell, 1 on an empty
cell, LOSE on an opponent cell. -/
def seedVal (b : HexBoard) (color : Color) (c : Coord) : Nat :=
  if b.is_color c color then 0 else if b.is_empty c then 1 else loseCost

/-- The seeding loop of `get_dijkstra_score`: for each `i`, at
`(i*alignment[0], i*alignment[1])` mark updated False and set the seed value
(alignment `(0,1)` for BLUE — the `x = 0` edge — and `(1,0)` for RED). -/
def dijInit (b : HexBoard) (color : Color) :
    List (List Nat) × List (List Bool) :=
  (List.range b.size).foldl
    (fun su i =>
      let c : Coord := if color = .blue then (0, i) else (i, 0)
      (setS su.1 c (seedVal b color c), setU su.2 c false))
    (dijInitBase b, dijInitUpdatedBase b)

/-- `AlphaBetaPlayer.get_dijkstra_score`: seed, relax to a fixpoint, then take
the minimum over the goal edge (`scores[-1][i]` for BLUE, `scores[i][-1]` for
RED; Python's `-1` index is the last row/column). -/
def get_dijkstra_score (b : HexBoard) (color : Color) : Nat :=
  let su := dijInit b color
  let scores := dijkstra_update b color su.1 su.2
  let results := (List.range b.size).map fun i =>
    if color = .blue then getS scores (b.size - 1, i)
    else getS scores (i, b.size - 1)
  match results with
  | [] => 0
  | r :: rest => rest.foldl Nat.min r

/-- `AlphaBetaPlayer.eval_dijkstra`: opponent distance minus own distance. -/
def eval_dijkstra (b : HexBoard) (color : Color) : Int :=
  (get_dijkstra_score b color.opp : Int) - (get_dijkstra_score b color : Int)

/-- C8: for every board state and color, the flood-relaxation loop of the
distance evaluator terminates — after finitely many passes over the scores
seeded by `get_dijkstra_score`, a full pass produces no improvement anywhere,
and `dijkstra_update` returns the scores of that final pass. -/
theorem claim_C8_dijkstra_terminates :
    ∀ (b : HexBoard) (color : Color),
      ∃ n : Nat,
        (dijkstraPass b color
          (passIter b color n (dijInit b color)).1
          (passIter b color n (dijInit b color)).2).2.2 = false ∧
        dijkstra_update b color (dijInit b color).1 (dijInit b color).2 =
          (dijkstraPass b color
            (passIter b color n (dijInit b color)).1
            (passIter b color n (dijInit b color)).2).1 := by
  intro b color
  exact dij_reaches b color (sumScores (dijInit b color).1)
    (dijInit b color).1 (dijInit b color).2 (Nat.le_refl _)
